import Mathlib

/-!
# Worker assembly of the runc worker (`worker/runc/runc.go`)

A shallow embedding of `NewWorkerOpt`.  The function is a straight line of
calls into other packages, each of which may fail; the embedding keeps

* the calls it makes, in order and with their arguments (`Call`, the trace),
* the values it builds from the results (closures are kept as the data they
  capture, with a separate function that runs their body),
* the pair `(base.WorkerOpt, error)` it returns.

Functions of other packages are fields of `Env`; every one of them is called at
most once by `NewWorkerOpt`, so a field that is a function of its arguments
covers every behaviour the call can have.  `filepath.Join` and `filepath.Clean`
of the Go standard library (Unix) are transcribed, because the paths that
`NewWorkerOpt` opens are what `Join` computes.
-/

namespace Runc

/-! ## Go values -/

/-- A Go `error` that is not nil; a nil error is `none` of `Option GoError`. -/
structure GoError where
  msg : String
deriving DecidableEq, Repr

/-- A Go `map[string]string` as the list of its entries in iteration order.
Go leaves that order unspecified, so a statement for all lists covers every
order. -/
abbrev LabelMap := List (String × String)

/-- Every key occurs once, as in a Go map. -/
def LabelMap.WellFormed (m : LabelMap) : Prop := (m.map Prod.fst).Nodup

instance (m : LabelMap) : Decidable (LabelMap.WellFormed m) := by
  unfold LabelMap.WellFormed; exact inferInstance

/-- The map lookup `m[k]` with its presence flag. -/
def LabelMap.get : LabelMap → String → Option String
  | [], _ => none
  | (k', v) :: rest, k => if k' = k then some v else LabelMap.get rest k

/-- The map assignment `m[k] = v`. -/
def LabelMap.set : LabelMap → String → String → LabelMap
  | [], k, v => [(k, v)]
  | (k', v') :: rest, k, v =>
    if k' = k then (k, v) :: rest else (k', v') :: LabelMap.set rest k v

/-! ## `path/filepath` on Unix

The functions `Clean` and `Join` of the Go standard library (`path/filepath`,
files `path.go` and `path_unix.go`).  A Go string is a sequence of bytes; it is
a list of characters here.  `Clean` tests bytes against `/` and `.` only, and
in UTF-8 these bytes occur in no other character, so on text both agree.  The
buffer `lazybuf` of `Clean` is kept as the bytes written so far, `buf[:w]`. -/

namespace filepath

/-- The `os.IsPathSeparator` of Unix. -/
def IsPathSeparator (c : Char) : Bool := c == '/'

/-- The test `r+k == n || os.IsPathSeparator(path[r+k])` on the rest of the path
from index `r+k`. -/
def atEndOrSep : List Char → Bool
  | [] => true
  | c :: _ => IsPathSeparator c

/-- The state of the loop of `Clean`: the bytes written so far (`out.buf[:out.w]`,
last byte first) and the index `dotdot` below which the output is not
backtracked. -/
structure CleanState where
  out : List Char
  dotdot : Nat
deriving DecidableEq, Repr

/-- The backtracking of a `..` element,
`out.w--; for out.w > dotdot && !os.IsPathSeparator(out.index(out.w)) { out.w-- }`,
on the output with its last byte first: the head is the byte at the new
`out.w`. -/
def backtrack (dotdot : Nat) : List Char → List Char
  | [] => []
  | c :: rest =>
    if decide (rest.length > dotdot) && !IsPathSeparator c then backtrack dotdot rest else rest

/-- The `..` case of the loop of `Clean`. -/
def dotdotStep (rooted : Bool) (st : CleanState) : CleanState :=
  if st.out.length > st.dotdot then
    { st with out := backtrack st.dotdot st.out }
  else if !rooted then
    let out := if st.out.length > 0 then '/' :: st.out else st.out
    { out := '.' :: '.' :: out, dotdot := out.length + 2 }
  else st

/-- The default case of the loop of `Clean`: a separator if the output needs
one, then the bytes of the element. -/
def elemStep (rooted : Bool) (st : CleanState) (elem : List Char) : CleanState :=
  let out :=
    if (rooted && st.out.length != 1) || (!rooted && st.out.length != 0) then '/' :: st.out
    else st.out
  { st with out := elem.reverse ++ out }

/-- The loop `for r < n` of `Clean` on the rest of the path from index `r`.  Every
round reads at least one byte, so `fuel` at least the length of the rest is
never used up. -/
def cleanLoop (rooted : Bool) : Nat → List Char → CleanState → CleanState
  | 0, _, st => st
  | _ + 1, [], st => st
  | fuel + 1, c :: rest, st =>
    if IsPathSeparator c then
      cleanLoop rooted fuel rest st
    else if c == '.' && atEndOrSep rest then
      cleanLoop rooted fuel rest st
    else if c == '.' && rest.head? == some '.' && atEndOrSep rest.tail then
      cleanLoop rooted fuel rest.tail (dotdotStep rooted st)
    else
      cleanLoop rooted fuel (rest.dropWhile (fun b => !IsPathSeparator b))
        (elemStep rooted st (c :: rest.takeWhile (fun b => !IsPathSeparator b)))

/-- The bytes of `filepath.Clean(path)`; there is no volume name on Unix and
`FromSlash` is the identity. -/
def cleanChars (path : List Char) : List Char :=
  match path with
  | [] => ['.']
  | c :: rest =>
    let rooted := IsPathSeparator c
    let st :=
      if rooted then cleanLoop rooted path.length rest { out := ['/'], dotdot := 1 }
      else cleanLoop rooted path.length path { out := [], dotdot := 0 }
    if st.out.length = 0 then ['.'] else st.out.reverse

/-- The function `filepath.Clean`. -/
def Clean (path : String) : String := String.mk (cleanChars path.data)

/-- The bytes of `strings.Join(elem, "/")`. -/
def joinChars : List String → List Char
  | [] => []
  | [e] => e.data
  | e :: rest => e.data ++ '/' :: joinChars rest

/-- The function `filepath.Join`: the elements from the first one that is not
empty, joined by the separator and cleaned; the empty string if there is none. -/
def Join : List String → String
  | [] => ""
  | e :: rest => if e ≠ "" then String.mk (cleanChars (joinChars (e :: rest))) else Join rest

/-- A path element as the default case of `Clean` sees it: not empty, without a
separator, and neither `.` nor `..`. -/
def properElem (x : List Char) : Bool :=
  !x.isEmpty && x.all (fun b => !IsPathSeparator b) && x != ['.'] && x != ['.', '.']

/-- The state of the loop of `Clean` before the first round. -/
def initState (rooted : Bool) : CleanState :=
  if rooted then { out := ['/'], dotdot := 1 } else { out := [], dotdot := 0 }

/-- The path `body/x`, or `x` alone when `body` is empty. -/
def extend (body x : List Char) : List Char :=
  if body.isEmpty then x else body ++ '/' :: x

/-- The states the loop of `Clean` reaches, each with the path after the
leading separator that it stands for: the state before the first round, a
state of this kind followed by a proper element, and, in a path that is not
rooted, a state that is all `..` followed by one more `..`. -/
inductive Norm (rooted : Bool) : List Char → CleanState → Prop where
  | init : Norm rooted [] (initState rooted)
  | elem (body : List Char) (st : CleanState) (x : List Char) :
      Norm rooted body st → properElem x = true →
      Norm rooted (extend body x) (elemStep rooted st x)
  | up (body : List Char) (st : CleanState) :
      Norm rooted body st → rooted = false → st.out.length = st.dotdot →
      Norm rooted (extend body ['.', '.']) (dotdotStep rooted st)

/-- The directory `W` as a prefix of the paths under it: `W/`, but `/` for the
root and nothing for the current directory `.`. -/
def asDir (W : List Char) : List Char :=
  if W = ['/'] then ['/'] else if W = ['.'] then [] else W ++ ['/']

/-- What `Clean` writes for the directory part `dir` of a path `dir/elem` before
the last element: the output of the loop on `dir`, and the separator that the
default case adds. -/
def dirPrefix (dir : List Char) : List Char :=
  match dir with
  | [] => []
  | c :: rest =>
    let rooted := IsPathSeparator c
    let st :=
      if rooted then cleanLoop rooted rest.length rest { out := ['/'], dotdot := 1 }
      else cleanLoop rooted dir.length dir { out := [], dotdot := 0 }
    (elemStep rooted st []).out.reverse

end filepath

/-! ## Values of the other packages -/

/-- The `*metadata.Store` that `metadata.NewStore` returned. -/
structure MetadataStore where
  id : Nat
deriving DecidableEq, Repr

/-- The network providers that `netproviders.Providers` returned. -/
structure NetProviders where
  id : Nat
deriving DecidableEq, Repr

/-- The `executor.Executor` that `runcexecutor.New` returned. -/
structure Executor where
  id : Nat
deriving DecidableEq, Repr

/-- The `ctdsnapshot.Snapshotter` that the factory returned. -/
structure CtdSnapshotter where
  id : Nat
deriving DecidableEq, Repr

/-- The content store that `local.NewStore` returned. -/
structure LocalStore where
  id : Nat
deriving DecidableEq, Repr

/-- The `*bolt.DB` that `bolt.Open` returned. -/
structure BoltDB where
  id : Nat
deriving DecidableEq, Repr

/-- The type `oci.ProcessMode`. -/
structure ProcessMode where
  mode : Nat
deriving DecidableEq, Repr

/-- The type `idtools.IdentityMapping`. -/
structure IdentityMapping where
  id : Nat
deriving DecidableEq, Repr

/-- The type `netproviders.Opt`. -/
structure NetOpt where
  mode : String
  cniConfigPath : String
deriving DecidableEq, Repr

/-- The type `oci.DNSConfig`. -/
structure DNSConfig where
  nameservers : List String
deriving DecidableEq, Repr

/-- The type `specs.Platform`. -/
structure Platform where
  os : String
  architecture : String
deriving DecidableEq, Repr

/-- The type `context.Context`, as far as it matters here: whether it is
cancelled. -/
structure Context where
  cancelled : Bool
deriving DecidableEq, Repr

/-- The context `context.TODO()`. -/
def Context.TODO : Context := { cancelled := false }

/-- The type `runcexecutor.Opt`, with the fields `NewWorkerOpt` sets. -/
structure RuncOpt where
  Root : String
  Rootless : Bool
  ProcessMode : ProcessMode
  IdentityMapping : Option IdentityMapping
  DNS : Option DNSConfig
deriving DecidableEq, Repr

/-- The type `SnapshotterFactory` of the source. -/
structure SnapshotterFactory where
  Name : String
  New : String → Except GoError CtdSnapshotter

/-- The value `ctdmetadata.NewDB(db, c, ss)`: the bolt database, the content
store (the local store of line 71) and the map of snapshotters. -/
structure MetaDB where
  db : BoltDB
  cs : LocalStore
  ss : List (String × CtdSnapshotter)
deriving DecidableEq, Repr

/-- The closure of lines 88 to 92, `func() { mdb.GarbageCollect(...) ... }`; it
captures `mdb`. -/
structure SweepFunc where
  mdb : MetaDB
deriving DecidableEq, Repr

/-- The value `throttle.Throttle(d, f)`, with `d` in nanoseconds. -/
structure ThrottledFunc where
  d : Nat
  f : SweepFunc
deriving DecidableEq, Repr

/-- The closure `gc` of lines 94 to 97; it captures `throttledGC`. -/
structure GCFunc where
  throttledGC : ThrottledFunc
deriving DecidableEq, Repr

/-- The constant `time.Second`, in nanoseconds. -/
def time.Second : Nat := 1000000000

/-- The values of type `content.Store` that occur. -/
inductive ContentStore where
  /-- The store of `local.NewStore`. -/
  | localStore (s : LocalStore)
  /-- The store `mdb.ContentStore()`. -/
  | ofDB (mdb : MetaDB)
  /-- The store `containerdsnapshot.NewContentStore(store, ns, gc)`. -/
  | namespaced (store : ContentStore) (ns : String) (gc : GCFunc)
deriving DecidableEq, Repr

/-- The value `mdb.Snapshotter(name)`. -/
structure DBSnapshotter where
  mdb : MetaDB
  name : String
deriving DecidableEq, Repr

/-- The value `containerdsnapshot.NewSnapshotter(name, snapshotter, store, mdstore,
ns, gc, idmap)`. -/
structure Snapshotter where
  name : String
  snapshotter : DBSnapshotter
  store : ContentStore
  mdstore : MetadataStore
  ns : String
  gc : GCFunc
  idmap : Option IdentityMapping
deriving DecidableEq, Repr

/-- The value `winlayers.NewFileSystemApplierWithWindows(cs, apply.NewFileSystemApplier(cs2))`. -/
structure Applier where
  cs : ContentStore
  innerCs : ContentStore
deriving DecidableEq, Repr

/-- The value `winlayers.NewWalkingDiffWithWindows(store, walking.NewWalkingDiff(store2))`. -/
structure Differ where
  store : ContentStore
  innerStore : ContentStore
deriving DecidableEq, Repr

/-- The value `leaseutil.WithNamespace(ctdmetadata.NewLeaseManager(mdb), ns)`. -/
structure LeaseManager where
  mdb : MetaDB
  ns : String
deriving DecidableEq, Repr

/-- The type `images.Store`; `NewWorkerOpt` never builds one. -/
structure ImageStore where
  id : Nat
deriving DecidableEq, Repr

/-- The fields of `base.WorkerOpt` that the composite literal of lines 109 to 122
sets.  A pointer, interface or map field is an `Option`, `none` being nil. -/
structure WorkerOpt where
  ID : String
  Labels : Option LabelMap
  MetadataStore : Option MetadataStore
  Executor : Option Executor
  Snapshotter : Option Snapshotter
  ContentStore : Option ContentStore
  Applier : Option Applier
  Differ : Option Differ
  ImageStore : Option ImageStore
  Platforms : List Platform
  IdentityMapping : Option IdentityMapping
  LeaseManager : Option LeaseManager
deriving DecidableEq, Repr

/-- The zero value of `base.WorkerOpt`, the `var opt base.WorkerOpt` of line 38. -/
def WorkerOpt.zero : WorkerOpt :=
  { ID := "", Labels := none, MetadataStore := none, Executor := none, Snapshotter := none,
    ContentStore := none, Applier := none, Differ := none, ImageStore := none, Platforms := [],
    IdentityMapping := none, LeaseManager := none }

/-- A value that a field of the handle holds, or the local variable `gc` of
`NewWorkerOpt`: one case for each type of a field of the literal of lines 109 to
122, and the case `func` for a `func(context.Context) error`, the type of `gc`. -/
inductive FieldValue where
  | string (s : String)
  | labels (m : Option LabelMap)
  | metadataStore (md : Option MetadataStore)
  | executor (exe : Option Executor)
  | snapshotter (sn : Option Snapshotter)
  | contentStore (c : Option ContentStore)
  | applier (a : Option Applier)
  | differ (d : Option Differ)
  | imageStore (i : Option ImageStore)
  | platforms (ps : List Platform)
  | identityMapping (idmap : Option IdentityMapping)
  | leaseManager (lm : Option LeaseManager)
  | func (gc : GCFunc)
deriving DecidableEq, Repr

/-- The fields of a handle, each with its name and its value, in the order of the
literal of lines 109 to 122.  These are all the fields the literal sets; a field
of `base.WorkerOpt` that the literal does not name has its zero value. -/
def WorkerOpt.fields (o : WorkerOpt) : List (String × FieldValue) :=
  [("ID", .string o.ID),
   ("Labels", .labels o.Labels),
   ("MetadataStore", .metadataStore o.MetadataStore),
   ("Executor", .executor o.Executor),
   ("Snapshotter", .snapshotter o.Snapshotter),
   ("ContentStore", .contentStore o.ContentStore),
   ("Applier", .applier o.Applier),
   ("Differ", .differ o.Differ),
   ("ImageStore", .imageStore o.ImageStore),
   ("Platforms", .platforms o.Platforms),
   ("IdentityMapping", .identityMapping o.IdentityMapping),
   ("LeaseManager", .leaseManager o.LeaseManager)]

/-- The functions of other packages that `NewWorkerOpt` calls.  A function that
returns `(T, error)` is an `Except`: the caller drops the value when the error
is not nil. -/
structure Env where
  /-- The call `os.MkdirAll(path, perm)`. -/
  MkdirAll : String → Nat → Option GoError
  /-- The call `metadata.NewStore(dbPath)`. -/
  NewStore : String → Except GoError MetadataStore
  /-- The call `netproviders.Providers(opt)`. -/
  Providers : NetOpt → Except GoError NetProviders
  /-- The call `runcexecutor.New(opt, networkProviders)`. -/
  RuncNew : RuncOpt → NetProviders → Except GoError Executor
  /-- The call `local.NewStore(root)`. -/
  LocalNewStore : String → Except GoError LocalStore
  /-- The call `bolt.Open(path, mode, options)`. -/
  BoltOpen : String → Nat → Except GoError BoltDB
  /-- The call `mdb.Init(ctx)`. -/
  MdbInit : MetaDB → Context → Option GoError
  /-- The call `base.ID(root)`. -/
  ID : String → Except GoError String
  /-- The call `base.Labels(executor, snapshotter)`. -/
  Labels : String → String → LabelMap
  /-- The value `platforms.Normalize(platforms.DefaultSpec())`. -/
  DefaultPlatform : Platform

/-- A call of a step that can fail, with its arguments. -/
inductive Call where
  | MkdirAll (path : String) (perm : Nat)
  | NewStore (dbPath : String)
  | Providers (opt : NetOpt)
  | RuncNew (opt : RuncOpt) (np : NetProviders)
  | SnNew (root : String)
  | LocalNewStore (root : String)
  | BoltOpen (path : String) (mode : Nat)
  | MdbInit (mdb : MetaDB) (ctx : Context)
  | ID (root : String)
deriving DecidableEq, Repr

/-- What a call of `NewWorkerOpt` did: the steps it ran, in order, and the pair
it returned. -/
structure Outcome where
  trace : List Call
  opt : WorkerOpt
  err : Option GoError
deriving DecidableEq, Repr

/-! ## `NewWorkerOpt` -/

/-- The loop `for k, v := range labels { xlabels[k] = v }` of lines 106 to 108. -/
def mergeLabels (xlabels labels : LabelMap) : LabelMap :=
  labels.foldl (fun acc kv => LabelMap.set acc kv.1 kv.2) xlabels

/-- The function `NewWorkerOpt`.  A nil `labels` ranges like the empty map. -/
def NewWorkerOpt (env : Env) (root : String) (snFactory : SnapshotterFactory) (rootless : Bool)
    (processMode : ProcessMode) (labels : LabelMap) (idmap : Option IdentityMapping)
    (nopt : NetOpt) (dns : Option DNSConfig) : Outcome :=
  let opt := WorkerOpt.zero
  let name := "runc-" ++ snFactory.Name
  let root := filepath.Join [root, name]
  let t1 := [Call.MkdirAll root 0o700]
  match env.MkdirAll root 0o700 with
  | some err => ⟨t1, opt, some err⟩
  | none =>
  let t2 := t1 ++ [Call.NewStore (filepath.Join [root, "metadata.db"])]
  match env.NewStore (filepath.Join [root, "metadata.db"]) with
  | .error err => ⟨t2, opt, some err⟩
  | .ok md =>
  let t3 := t2 ++ [Call.Providers nopt]
  match env.Providers nopt with
  | .error err => ⟨t3, opt, some err⟩
  | .ok np =>
  let ropt : RuncOpt :=
    { Root := filepath.Join [root, "executor"], Rootless := rootless, ProcessMode := processMode,
      IdentityMapping := idmap, DNS := dns }
  let t4 := t3 ++ [Call.RuncNew ropt np]
  match env.RuncNew ropt np with
  | .error err => ⟨t4, opt, some err⟩
  | .ok exe =>
  let t5 := t4 ++ [Call.SnNew (filepath.Join [root, "snapshots"])]
  match snFactory.New (filepath.Join [root, "snapshots"]) with
  | .error err => ⟨t5, opt, some err⟩
  | .ok s =>
  let t6 := t5 ++ [Call.LocalNewStore (filepath.Join [root, "content"])]
  match env.LocalNewStore (filepath.Join [root, "content"]) with
  | .error err => ⟨t6, opt, some err⟩
  | .ok c0 =>
  let t7 := t6 ++ [Call.BoltOpen (filepath.Join [root, "containerdmeta.db"]) 0o644]
  match env.BoltOpen (filepath.Join [root, "containerdmeta.db"]) 0o644 with
  | .error err => ⟨t7, opt, some err⟩
  | .ok db =>
  let mdb : MetaDB := { db := db, cs := c0, ss := [(snFactory.Name, s)] }
  let t8 := t7 ++ [Call.MdbInit mdb Context.TODO]
  match env.MdbInit mdb Context.TODO with
  | some err => ⟨t8, opt, some err⟩
  | none =>
  let throttledGC : ThrottledFunc := { d := time.Second, f := { mdb := mdb } }
  let gc : GCFunc := { throttledGC := throttledGC }
  let c := ContentStore.namespaced (ContentStore.ofDB mdb) "buildkit" gc
  let t9 := t8 ++ [Call.ID root]
  match env.ID root with
  | .error err => ⟨t9, opt, some err⟩
  | .ok id =>
  let xlabels := mergeLabels (env.Labels "oci" snFactory.Name) labels
  let opt : WorkerOpt :=
    { ID := id
      Labels := some xlabels
      MetadataStore := some md
      Executor := some exe
      Snapshotter := some
        { name := snFactory.Name, snapshotter := { mdb := mdb, name := snFactory.Name },
          store := c, mdstore := md, ns := "buildkit", gc := gc, idmap := idmap }
      ContentStore := some c
      Applier := some { cs := c, innerCs := c }
      Differ := some { store := c, innerStore := c }
      ImageStore := none
      Platforms := [env.DefaultPlatform]
      IdentityMapping := idmap
      LeaseManager := some { mdb := mdb, ns := "buildkit" } }
  ⟨t9, opt, none⟩

/-- The worker directory `filepath.Join(root, "runc-" + snFactory.Name)` of line 40. -/
def workerDir (root : String) (snFactory : SnapshotterFactory) : String :=
  filepath.Join [root, "runc-" ++ snFactory.Name]

/-- The error a function that returns `(T, error)` returned. -/
def errOf {α : Type} : Except GoError α → Option GoError
  | .error e => some e
  | .ok _ => none

/-- The error that a step returned, nil (`none`) when it succeeded. -/
def Call.result (env : Env) (snFactory : SnapshotterFactory) : Call → Option GoError
  | .MkdirAll path perm => env.MkdirAll path perm
  | .NewStore dbPath => errOf (env.NewStore dbPath)
  | .Providers opt => errOf (env.Providers opt)
  | .RuncNew opt np => errOf (env.RuncNew opt np)
  | .SnNew root => errOf (snFactory.New root)
  | .LocalNewStore root => errOf (env.LocalNewStore root)
  | .BoltOpen path mode => errOf (env.BoltOpen path mode)
  | .MdbInit mdb ctx => env.MdbInit mdb ctx
  | .ID root => errOf (env.ID root)

/-- The function a step calls. -/
inductive Step where
  | MkdirAll | NewStore | Providers | RuncNew | SnNew | LocalNewStore | BoltOpen | MdbInit | ID
deriving DecidableEq, Repr

/-- The function that a call calls. -/
def Call.step : Call → Step
  | .MkdirAll _ _ => .MkdirAll
  | .NewStore _ => .NewStore
  | .Providers _ => .Providers
  | .RuncNew _ _ => .RuncNew
  | .SnNew _ => .SnNew
  | .LocalNewStore _ => .LocalNewStore
  | .BoltOpen _ _ => .BoltOpen
  | .MdbInit _ _ => .MdbInit
  | .ID _ => .ID

/-- The nine steps in the order of the source text: `os.MkdirAll`,
`metadata.NewStore`, `netproviders.Providers`, `runcexecutor.New`,
`snFactory.New`, `local.NewStore`, `bolt.Open`, `mdb.Init`, `base.ID`. -/
def stepOrder : List Step :=
  [.MkdirAll, .NewStore, .Providers, .RuncNew, .SnNew, .LocalNewStore, .BoltOpen, .MdbInit, .ID]

/-! ## A sample environment -/

/-- An environment in which every step succeeds and `base.Labels` returns three
labels. -/
def sampleEnv : Env :=
  { MkdirAll := fun _ _ => none
    NewStore := fun _ => .ok ⟨1⟩
    Providers := fun _ => .ok ⟨2⟩
    RuncNew := fun _ _ => .ok ⟨3⟩
    LocalNewStore := fun _ => .ok ⟨5⟩
    BoltOpen := fun _ _ => .ok ⟨6⟩
    MdbInit := fun _ _ => none
    ID := fun root => .ok root
    Labels := fun executor snapshotter =>
      [("org.mobyproject.buildkit.worker.executor", executor),
       ("org.mobyproject.buildkit.worker.snapshotter", snapshotter),
       ("org.mobyproject.buildkit.worker.hostname", "host")]
    DefaultPlatform := { os := "linux", architecture := "amd64" } }

/-- The environment `sampleEnv` with a bolt database that cannot be opened. -/
def boltFailEnv : Env :=
  { sampleEnv with BoltOpen := fun _ _ => .error ⟨"timeout"⟩ }

/-- A snapshotter factory that succeeds. -/
def sampleFactory : SnapshotterFactory :=
  { Name := "overlayfs", New := fun _ => .ok ⟨4⟩ }

/-- The call of `NewWorkerOpt` in `env` with root `/var/lib/buildkit`, the
factory `sampleFactory` and the labels `labels`. -/
def sampleRun (env : Env) (labels : LabelMap) : Outcome :=
  NewWorkerOpt env "/var/lib/buildkit" sampleFactory false ⟨0⟩ labels none ⟨"auto", ""⟩ none

/-! ## The paths of the steps -/

/-- The path that a step is given, if it is given one. -/
def Call.path : Call → Option String
  | .MkdirAll path _ => some path
  | .NewStore dbPath => some dbPath
  | .Providers _ => none
  | .RuncNew opt _ => some opt.Root
  | .SnNew root => some root
  | .LocalNewStore root => some root
  | .BoltOpen path _ => some path
  | .MdbInit _ _ => none
  | .ID root => some root

/-- The path each step is given for the worker directory `W`, read off the
arguments in the source text. -/
def stepPath (W : String) : Step → Option String
  | .MkdirAll => some W
  | .NewStore => some (filepath.Join [W, "metadata.db"])
  | .Providers => none
  | .RuncNew => some (filepath.Join [W, "executor"])
  | .SnNew => some (filepath.Join [W, "snapshots"])
  | .LocalNewStore => some (filepath.Join [W, "content"])
  | .BoltOpen => some (filepath.Join [W, "containerdmeta.db"])
  | .MdbInit => none
  | .ID => some W

/-- The five persistent paths under the worker directory `W`: the metadata
store, the executor root, the snapshot driver root, the content store and the
lease, content and snapshot index. -/
def persistentPaths (W : String) : List String :=
  [filepath.Join [W, "metadata.db"], filepath.Join [W, "executor"],
   filepath.Join [W, "snapshots"], filepath.Join [W, "content"],
   filepath.Join [W, "containerdmeta.db"]]

/-- The path of `name` directly under the directory `W`: `W/name`, but `/name`
under the root and `name` under the current directory `.`. -/
def underDir (W name : String) : String :=
  if W = "/" then "/" ++ name else if W = "." then name else W ++ "/" ++ name

/-! ## The worker identity -/

/-- Modelled from the spec: `base.ID` of package `worker/base`, which is not among
the source files (its call at line 101 is).  The spec says of it:
"Deterministic worker identity is derived from the storage root path (stable
across restarts, distinct across differently-rooted workers sharing a host)".
So the identity that `base.ID` returns, whenever and in whatever environment
it succeeds, is `derive` of the path it is given, and `derive` gives distinct
paths distinct identities. -/
structure DerivedID where
  derive : String → String
  distinct : ∀ p q : String, p ≠ q → derive p ≠ derive q

/-- The environment `env` has the `base.ID` of the model `d`. -/
def DerivedID.holdsIn (d : DerivedID) (env : Env) : Prop :=
  ∀ root id, env.ID root = .ok id → id = d.derive root

/-- The identity that is the path itself; `sampleEnv` has it. -/
def pathID : DerivedID :=
  { derive := fun p => p, distinct := fun _ _ h => h }

/-! ## The throttle -/

namespace throttle

/-- Modelled from the spec: the state of the function that `throttle.Throttle`
returns; package `util/throttle` is not among the source files (the call at
line 88 is).  The spec says: "at most one collection cycle executes per fixed time window", "any
requests arriving while a cycle is pending or running are merged into a single
pending trigger", "a second window elapsing while a sweep is still running must
not start a concurrent sweep".  Hence a clock, the single pending trigger, the
time at which the scheduled cycle is due, whether a cycle is running, and the
start times of the cycles run so far, the latest first. -/
structure State where
  now : Nat
  pending : Bool
  due : Option Nat
  running : Bool
  started : List Nat
deriving DecidableEq, Repr

/-- Modelled from the spec: a call of the throttled function.  It never waits
for a sweep: it records the trigger, and when no cycle is scheduled or in
progress it schedules one a window `d` from now. -/
def call (d : Nat) (s : State) : State :=
  { s with
    pending := true
    due := if s.due.isNone && !s.running then some (s.now + d) else s.due }

/-- Time passes. -/
def tick (dt : Nat) (s : State) : State :=
  { s with now := s.now + dt }

/-- Modelled from the spec: a cycle may start when one is scheduled, its window
has elapsed and no cycle is running. -/
def canStart (s : State) : Bool :=
  match s.due with
  | some t => decide (t ≤ s.now) && !s.running
  | none => false

/-- Modelled from the spec: the scheduled cycle starts and takes the pending
trigger with it. -/
def start (s : State) : State :=
  if canStart s then
    { s with pending := false, due := none, running := true, started := s.now :: s.started }
  else s

/-- Modelled from the spec: the running cycle finishes; if a trigger arrived
meanwhile another cycle is scheduled a window from now. -/
def done (d : Nat) (s : State) : State :=
  if s.running then
    { s with running := false, due := if s.pending then some (s.now + d) else none }
  else s

end throttle

/-! ## The store behind `mdb` -/

/-- The two kinds of resource. -/
inductive Kind where
  | blob
  | snapshot
deriving DecidableEq, Repr

/-- Modelled from the spec: a snapshot has a unique id, an optional parent and a
diff, the blobs it references. -/
structure SnapshotRec where
  id : Nat
  parent : Option Nat
  diff : List Nat
deriving DecidableEq, Repr

/-- Modelled from the spec: a lease has a unique id, a namespace and the sets of
blobs and snapshots it references. -/
structure Lease where
  id : Nat
  ns : String
  blobs : List Nat
  snapshots : List Nat
deriving DecidableEq, Repr

/-- The references of a lease to resources of one kind. -/
def Lease.refs (l : Lease) : Kind → List Nat
  | .blob => l.blobs
  | .snapshot => l.snapshots

/-- Modelled from the spec: the content store (blobs by digest), the snapshot
tree and the lease registry that the database of `ctdmetadata.NewDB` keeps;
the package is not among the source files. -/
structure Store where
  blobs : List Nat
  snapshots : List SnapshotRec
  leases : List Lease
  nextLease : Nat
  nextSnapshot : Nat
deriving DecidableEq, Repr

/-- A resource is in the store. -/
def Store.has (s : Store) : Kind → Nat → Bool
  | .blob, d => s.blobs.contains d
  | .snapshot, i => s.snapshots.any (fun sn => sn.id == i)

/-- The parent of the snapshot `i`, if the store has both. -/
def Store.parentOf (s : Store) (i : Nat) : Option Nat :=
  (s.snapshots.find? (fun sn => sn.id == i)).bind (fun sn => sn.parent)

/-- Modelled from the spec: the snapshot parent chain.  The snapshot `j` is `i`
itself or an ancestor of `i`: the parent of `i`, the parent of that, and so
on. -/
inductive Store.Ancestor (s : Store) : Nat → Nat → Prop where
  | refl (i : Nat) : Store.Ancestor s i i
  | step (i p j : Nat) : s.parentOf i = some p → Store.Ancestor s p j → Store.Ancestor s i j

/-- Modelled from the spec: a lease references a resource "directly or via the
snapshot parent chain"; "each leased snapshot pulls in all its ancestors" and
"each reachable snapshot pulls in the blobs of its diff".  So a lease
references a snapshot that is one of its snapshots or an ancestor of one, and a
blob that is one of its blobs or in the diff of a snapshot it references. -/
def Store.References (s : Store) (l : Lease) : Kind → Nat → Prop
  | .snapshot, r => ∃ i ∈ l.refs .snapshot, s.Ancestor i r
  | .blob, d =>
    d ∈ l.refs .blob ∨
      ∃ i ∈ l.refs .snapshot, ∃ sn ∈ s.snapshots, s.Ancestor i sn.id ∧ d ∈ sn.diff

/-- The snapshot `k` parent steps up from `i`, if the chain is that long. -/
def Store.walk (s : Store) : Nat → Nat → Option Nat
  | 0, i => some i
  | k + 1, i => (s.parentOf i).bind (Store.walk s k)

/-- The snapshots that a lease references directly. -/
def Store.leasedSnapshots (s : Store) : List Nat :=
  (s.leases.map (fun l => l.snapshots)).flatten

/-- The blobs that a lease references directly. -/
def Store.leasedBlobs (s : Store) : List Nat :=
  (s.leases.map (fun l => l.blobs)).flatten

/-- The closure over snapshot-parent edges, `n` rounds of adding the parents. -/
def closeParents (s : Store) : Nat → List Nat → List Nat
  | 0, ids => ids
  | n + 1, ids => closeParents s n (ids ++ ids.filterMap (fun i => s.parentOf i))

/-- Modelled from the spec: the reachable snapshots, "the lease's direct
references, then closing over snapshot-parent edges".  A chain of parents in
the store is no longer than the number of snapshots. -/
def Store.reachableSnapshots (s : Store) : List Nat :=
  closeParents s s.snapshots.length s.leasedSnapshots

/-- Modelled from the spec: the reachable blobs, those a lease references and
those in the diff of a reachable snapshot. -/
def Store.reachableBlobs (s : Store) : List Nat :=
  s.leasedBlobs ++
    ((s.snapshots.filter (fun sn => s.reachableSnapshots.contains sn.id)).map
      (fun sn => sn.diff)).flatten

/-- Children before parents: the snapshots of `g` none of whose children is in
`g`, then the rest in the same way. -/
def leafFirst : Nat → List SnapshotRec → List SnapshotRec
  | 0, g => g
  | n + 1, g =>
    let inner := g.filter (fun sn => g.any (fun c => c.parent == some sn.id))
    let leaves := g.filter (fun sn => !g.any (fun c => c.parent == some sn.id))
    if leaves.isEmpty then g else leaves ++ leafFirst n inner

/-- Modelled from the spec: what a cycle deletes, in order: "anything outside
this closure is eligible for deletion", a snapshot "only after its children",
blobs after the snapshots. -/
def Store.garbage (s : Store) : List (Kind × Nat) :=
  (leafFirst s.snapshots.length
      (s.snapshots.filter (fun sn => !s.reachableSnapshots.contains sn.id))).map
    (fun sn => (Kind.snapshot, sn.id)) ++
  (s.blobs.filter (fun d => !s.reachableBlobs.contains d)).map (fun d => (Kind.blob, d))

/-- The deletion of one resource. -/
def Store.delete (s : Store) : Kind × Nat → Store
  | (.blob, d) => { s with blobs := s.blobs.filter (fun b => b != d) }
  | (.snapshot, i) => { s with snapshots := s.snapshots.filter (fun sn => sn.id != i) }

/-- A failure of a sweep: the number of deletions committed before it, and the
error. -/
abbrev Fault := Nat × GoError

/-- Modelled from the spec: `mdb.GarbageCollect(ctx)`.  The reachable set is
computed on the store as it is when the cycle runs and everything outside it
is deleted, "one resource at a time"; a failure aborts the cycle after the
deletions already committed and is returned.  A cancelled context aborts the
cycle before any deletion. -/
def GarbageCollect (fault : Option Fault) (_mdb : MetaDB) (ctx : Context) (s : Store) :
    Store × Option GoError :=
  if ctx.cancelled then (s, some ⟨"context canceled"⟩)
  else
    match fault with
    | none => (s.garbage.foldl Store.delete s, none)
    | some (n, err) => ((s.garbage.take n).foldl Store.delete s, some err)

/-- Modelled from the spec: the operations of builds on the store that the
collector runs beside (sections 4.1 to 4.3 of the spec). -/
inductive StoreOp where
  /-- The operation `put`, by the digest of the bytes. -/
  | put (digest : Nat)
  /-- The operation `create(parentID?, diffBlobs)`. -/
  | createSnapshot (parent : Option Nat) (diff : List Nat)
  /-- The operation `createLease(namespace)`. -/
  | createLease (ns : String)
  /-- The operation `addReference(leaseID, kind, resourceID)`. -/
  | addReference (lease : Nat) (kind : Kind) (resource : Nat)
  /-- The operation `removeReference(leaseID, kind, resourceID)`. -/
  | removeReference (lease : Nat) (kind : Kind) (resource : Nat)
  /-- The operation `release(leaseID)`. -/
  | release (lease : Nat)
deriving DecidableEq, Repr

/-- A lease with one more reference. -/
def Lease.add (l : Lease) : Kind → Nat → Lease
  | .blob, r => { l with blobs := r :: l.blobs }
  | .snapshot, r => { l with snapshots := r :: l.snapshots }

/-- A lease without a reference. -/
def Lease.remove (l : Lease) : Kind → Nat → Lease
  | .blob, r => { l with blobs := l.blobs.filter (fun b => b != r) }
  | .snapshot, r => { l with snapshots := l.snapshots.filter (fun b => b != r) }

/-- Modelled from the spec: the effect of an operation.  `put` is idempotent, a
snapshot is created only on a parent that exists and its record goes after the
records the store has, so that it stands in for none of them, a lease gets a
fresh id. -/
def StoreOp.apply : StoreOp → Store → Store
  | .put d, s => if s.blobs.contains d then s else { s with blobs := d :: s.blobs }
  | .createSnapshot parent diff, s =>
    if parent.all (fun p => s.has .snapshot p) then
      { s with
        snapshots := s.snapshots ++ [{ id := s.nextSnapshot, parent := parent, diff := diff }]
        nextSnapshot := s.nextSnapshot + 1 }
    else s
  | .createLease ns, s =>
    { s with
      leases := { id := s.nextLease, ns := ns, blobs := [], snapshots := [] } :: s.leases
      nextLease := s.nextLease + 1 }
  | .addReference i k r, s =>
    { s with leases := s.leases.map (fun l => if l.id = i then l.add k r else l) }
  | .removeReference i k r, s =>
    { s with leases := s.leases.map (fun l => if l.id = i then l.remove k r else l) }
  | .release i, s => { s with leases := s.leases.filter (fun l => l.id != i) }

/-! ## The running worker -/

/-- The implementations of `mdb.GarbageCollect` that a statement may range
over. -/
abbrev GCImpl := Option Fault → MetaDB → Context → Store → Store × Option GoError

/-- The state of a running worker as far as the GC trigger goes: the throttle,
the store behind `mdb`, the log of `logrus`, and the number of calls of
`mdb.GarbageCollect` so far. -/
structure Runtime where
  throttle : throttle.State
  store : Store
  log : List String
  gcCalls : Nat
deriving DecidableEq, Repr

/-- The body of the closure of lines 88 to 92: one call of `mdb.GarbageCollect`
with `context.TODO()`; its error is logged and goes nowhere else.  The closure
returns nothing. -/
def SweepFunc.call (impl : GCImpl) (fault : Option Fault) (f : SweepFunc) (rt : Runtime) :
    Runtime :=
  match impl fault f.mdb Context.TODO rt.store with
  | (store, some err) =>
    { rt with store := store, gcCalls := rt.gcCalls + 1,
              log := rt.log ++ ["GC error: " ++ err.msg] }
  | (store, none) => { rt with store := store, gcCalls := rt.gcCalls + 1 }

/-- A call `throttledGC()` of the function that `throttle.Throttle(d, f)`
returned. -/
def ThrottledFunc.call (t : ThrottledFunc) (rt : Runtime) : Runtime :=
  { rt with throttle := throttle.call t.d rt.throttle }

/-- The body of the closure `gc` of lines 94 to 97: `throttledGC()` and then
`return nil`. -/
def GCFunc.call (gc : GCFunc) (_ctx : Context) (rt : Runtime) : Runtime × Option GoError :=
  (gc.throttledGC.call rt, none)

/-- What happens to a running worker. -/
inductive Event where
  /-- The snapshotter or the content store calls the trigger `gc(ctx)`. -/
  | gc (ctx : Context)
  /-- Time passes. -/
  | tick (dt : Nat)
  /-- The throttle starts the scheduled cycle if it may: it calls the closure of
  lines 88 to 92, whose sweep has the outcome `fault`. -/
  | sweepStart (fault : Option Fault)
  /-- The cycle that runs finishes. -/
  | sweepDone
  /-- A build operates on the store. -/
  | op (o : StoreOp)
deriving DecidableEq, Repr

/-- One event on a running worker whose trigger is `gc`. -/
def Runtime.step (impl : GCImpl) (gc : GCFunc) (rt : Runtime) : Event → Runtime
  | .gc ctx => (gc.call ctx rt).1
  | .tick dt => { rt with throttle := throttle.tick dt rt.throttle }
  | .sweepStart fault =>
    if throttle.canStart rt.throttle then
      SweepFunc.call impl fault gc.throttledGC.f { rt with throttle := throttle.start rt.throttle }
    else rt
  | .sweepDone => { rt with throttle := throttle.done gc.throttledGC.d rt.throttle }
  | .op o => { rt with store := o.apply rt.store }

/-- A sequence of events. -/
def Runtime.run (impl : GCImpl) (gc : GCFunc) (rt : Runtime) (events : List Event) : Runtime :=
  events.foldl (Runtime.step impl gc) rt

/-- The errors that the calls of the trigger returned, in order. -/
def Runtime.returned (impl : GCImpl) (gc : GCFunc) : Runtime → List Event → List (Option GoError)
  | _, [] => []
  | rt, .gc ctx :: rest =>
    (gc.call ctx rt).2 :: Runtime.returned impl gc (Runtime.step impl gc rt (.gc ctx)) rest
  | rt, e :: rest => Runtime.returned impl gc (Runtime.step impl gc rt e) rest

/-- The number of calls of the trigger among the events. -/
def triggerCount : List Event → Nat
  | [] => 0
  | .gc _ :: rest => triggerCount rest + 1
  | _ :: rest => triggerCount rest

/-- Every call of the trigger among the events happens before the time
`limit`. -/
def triggersBefore (impl : GCImpl) (gc : GCFunc) (limit : Nat) : Runtime → List Event → Bool
  | _, [] => true
  | rt, .gc ctx :: rest =>
    decide (rt.throttle.now < limit) &&
      triggersBefore impl gc limit (Runtime.step impl gc rt (.gc ctx)) rest
  | rt, e :: rest => triggersBefore impl gc limit (Runtime.step impl gc rt e) rest

/-- A worker that has just been built: nothing scheduled, nothing run. -/
def Runtime.fresh (store : Store) : Runtime :=
  { throttle := { now := 0, pending := false, due := none, running := false, started := [] },
    store := store, log := [], gcCalls := 0 }

/-- The `mdb` of the sample run. -/
def sampleMDB : MetaDB :=
  { db := ⟨6⟩, cs := ⟨5⟩, ss := [("overlayfs", ⟨4⟩)] }

/-- The trigger `gc` of the sample run. -/
def sampleGC : GCFunc :=
  { throttledGC := { d := time.Second, f := { mdb := sampleMDB } } }

/-- The snapshotter of the sample run. -/
def sampleSnapshotter : Snapshotter :=
  { name := "overlayfs", snapshotter := { mdb := sampleMDB, name := "overlayfs" },
    store := ContentStore.namespaced (ContentStore.ofDB sampleMDB) "buildkit" sampleGC,
    mdstore := ⟨1⟩, ns := "buildkit", gc := sampleGC, idmap := none }

/-- A store with a leased snapshot `1` on the blob `10`, and an unleased snapshot
`2` on the blob `20`. -/
def sampleStore : Store :=
  { blobs := [10, 20]
    snapshots := [{ id := 1, parent := none, diff := [10] }, { id := 2, parent := none, diff := [20] }]
    leases := [{ id := 7, ns := "buildkit", blobs := [], snapshots := [1] }]
    nextLease := 8
    nextSnapshot := 3 }

/-- A store in which the lease `7` holds the snapshot `2` alone; the snapshot `2`
has the parent `1` and the diff blob `20`, the snapshot `1` the diff blob `10`;
no lease reaches the snapshot `3` or its diff blob `30`. -/
def chainStore : Store :=
  { blobs := [10, 20, 30]
    snapshots :=
      [{ id := 1, parent := none, diff := [10] }, { id := 2, parent := some 1, diff := [20] },
       { id := 3, parent := none, diff := [30] }]
    leases := [{ id := 7, ns := "buildkit", blobs := [], snapshots := [2] }]
    nextLease := 8
    nextSnapshot := 4 }

/-! ## Lemmas on `filepath.Clean` and `filepath.Join` -/

namespace filepath

theorem cleanLoop_nil (rooted : Bool) (fuel : Nat) (st : CleanState) :
    cleanLoop rooted fuel [] st = st := by
  cases fuel <;> rfl

theorem cleanLoop_fuel (rooted : Bool) :
    ∀ (f1 f2 : Nat) (rest : List Char) (st : CleanState), rest.length ≤ f1 → rest.length ≤ f2 →
      cleanLoop rooted f1 rest st = cleanLoop rooted f2 rest st := by
  intro f1
  induction f1 with
  | zero =>
    intro f2 rest st h1 _
    have : rest = [] := List.length_eq_zero.1 (Nat.le_zero.1 h1)
    subst this
    rw [cleanLoop_nil, cleanLoop_nil]
  | succ f1 ih =>
    intro f2 rest st h1 h2
    cases rest with
    | nil => rw [cleanLoop_nil, cleanLoop_nil]
    | cons c r =>
      cases f2 with
      | zero => simp at h2
      | succ f2 =>
        have hr1 : r.length ≤ f1 := by simpa using h1
        have hr2 : r.length ≤ f2 := by simpa using h2
        have ht : r.tail.length ≤ r.length := by simp
        have hd : (r.dropWhile (fun b => !IsPathSeparator b)).length ≤ r.length :=
          (List.dropWhile_sublist _).length_le
        simp only [cleanLoop]
        split_ifs
        · exact ih f2 r st hr1 hr2
        · exact ih f2 r st hr1 hr2
        · exact ih f2 _ _ (le_trans ht hr1) (le_trans ht hr2)
        · exact ih f2 _ _ (le_trans hd hr1) (le_trans hd hr2)

theorem atEndOrSep_append (r x : List Char) :
    atEndOrSep (r ++ '/' :: x) = atEndOrSep r := by
  cases r <;> simp [atEndOrSep, IsPathSeparator]

theorem takeWhile_append_sep (r x : List Char) :
    (r ++ '/' :: x).takeWhile (fun b => !IsPathSeparator b)
      = r.takeWhile (fun b => !IsPathSeparator b) := by
  induction r with
  | nil => simp [IsPathSeparator]
  | cons d r ih =>
    simp only [List.cons_append, List.takeWhile_cons, ih]

theorem dropWhile_append_sep (r x : List Char) :
    (r ++ '/' :: x).dropWhile (fun b => !IsPathSeparator b)
      = r.dropWhile (fun b => !IsPathSeparator b) ++ '/' :: x := by
  induction r with
  | nil => simp [IsPathSeparator]
  | cons d r ih =>
    simp only [List.cons_append, List.dropWhile_cons, ih]
    split <;> rfl

theorem takeWhile_of_all (x : List Char) (h : x.all (fun b => !IsPathSeparator b) = true) :
    x.takeWhile (fun b => !IsPathSeparator b) = x := by
  induction x with
  | nil => rfl
  | cons d r ih =>
    simp only [List.all_cons, Bool.and_eq_true] at h
    simp [List.takeWhile_cons, h.1, ih h.2]

theorem dropWhile_of_all (x : List Char) (h : x.all (fun b => !IsPathSeparator b) = true) :
    x.dropWhile (fun b => !IsPathSeparator b) = [] := by
  induction x with
  | nil => rfl
  | cons d r ih =>
    simp only [List.all_cons, Bool.and_eq_true] at h
    simp [List.dropWhile_cons, h.1, ih h.2]

theorem cleanLoop_cons (rooted : Bool) (fuel : Nat) (c : Char) (rest : List Char)
    (st : CleanState) :
    cleanLoop rooted (fuel + 1) (c :: rest) st =
      if IsPathSeparator c then
        cleanLoop rooted fuel rest st
      else if c == '.' && atEndOrSep rest then
        cleanLoop rooted fuel rest st
      else if c == '.' && rest.head? == some '.' && atEndOrSep rest.tail then
        cleanLoop rooted fuel rest.tail (dotdotStep rooted st)
      else
        cleanLoop rooted fuel (rest.dropWhile (fun b => !IsPathSeparator b))
          (elemStep rooted st (c :: rest.takeWhile (fun b => !IsPathSeparator b))) := rfl

/-- The loop on `a/b` is the loop on `a` followed by the loop on `b`. -/
theorem cleanLoop_append (rooted : Bool) (b : List Char) :
    ∀ (n : Nat) (a : List Char) (st : CleanState) (f : Nat), a.length ≤ n →
      (a ++ '/' :: b).length ≤ f →
      cleanLoop rooted f (a ++ '/' :: b) st
        = cleanLoop rooted b.length b (cleanLoop rooted n a st) := by
  have hbase : ∀ (st : CleanState) (f : Nat), ('/' :: b).length ≤ f →
      cleanLoop rooted f ('/' :: b) st = cleanLoop rooted b.length b st := by
    intro st f hf
    cases f with
    | zero => simp at hf
    | succ f =>
      have hf' : b.length ≤ f := by simpa using hf
      rw [cleanLoop_cons]
      simp only [IsPathSeparator, beq_self_eq_true, if_true]
      exact cleanLoop_fuel rooted f b.length b st hf' le_rfl
  intro n
  induction n with
  | zero =>
    intro a st f ha hf
    have : a = [] := List.length_eq_zero.1 (Nat.le_zero.1 ha)
    subst this
    rw [cleanLoop_nil]
    exact hbase st f hf
  | succ n ih =>
    intro a st f ha hf
    cases a with
    | nil =>
      rw [cleanLoop_nil]
      exact hbase st f hf
    | cons c r =>
      cases f with
      | zero => simp at hf
      | succ f =>
        have hr : r.length ≤ n := by simpa using ha
        have hrf : (r ++ '/' :: b).length ≤ f := by simpa using hf
        rw [List.cons_append, cleanLoop_cons, cleanLoop_cons, atEndOrSep_append,
          takeWhile_append_sep, dropWhile_append_sep]
        have hd : (r.dropWhile (fun b => !IsPathSeparator b)).length ≤ n :=
          le_trans (List.dropWhile_sublist _).length_le hr
        have hdf : (r.dropWhile (fun b => !IsPathSeparator b) ++ '/' :: b).length ≤ f := by
          have : (r.dropWhile (fun b => !IsPathSeparator b)).length ≤ r.length :=
            (List.dropWhile_sublist _).length_le
          simp only [List.length_append, List.length_cons] at hrf ⊢
          omega
        cases r with
        | nil =>
          simp only [List.nil_append, List.head?_cons, List.head?_nil, List.tail_cons,
            List.tail_nil]
          have h1 : (some '/' == some '.') = false := by decide
          have h2 : ((none : Option Char) == some '.') = false := by decide
          simp only [h1, h2, Bool.and_false, Bool.false_and, Bool.false_eq_true, if_false]
          split_ifs
          · exact ih [] st f hr hrf
          · exact ih [] st f hr hrf
          · exact ih [] _ f hd hdf
        | cons d r' =>
          have hr' : r'.length ≤ n := le_trans (by simp) hr
          have hrf' : (r' ++ '/' :: b).length ≤ f := le_trans (by simp) hrf
          simp only [List.cons_append, List.head?_cons, List.tail_cons, atEndOrSep_append]
          split_ifs
          · exact ih (d :: r') st f hr hrf
          · exact ih (d :: r') st f hr hrf
          · exact ih r' _ f hr' hrf'
          · exact ih _ _ f hd hdf

theorem properElem_iff (x : List Char) :
    properElem x = true ↔
      x ≠ [] ∧ x.all (fun b => !IsPathSeparator b) = true ∧ x ≠ ['.'] ∧ x ≠ ['.', '.'] := by
  simp [properElem, and_assoc]

/-- The loop on a proper element alone runs the default case once. -/
theorem cleanLoop_proper (rooted : Bool) (x : List Char) (hx : properElem x = true)
    (f : Nat) (hf : x.length ≤ f) (st : CleanState) :
    cleanLoop rooted f x st = elemStep rooted st x := by
  rw [properElem_iff] at hx
  obtain ⟨hne, hall, hdot, hdotdot⟩ := hx
  cases x with
  | nil => exact absurd rfl hne
  | cons c r =>
    cases f with
    | zero => simp at hf
    | succ f =>
      simp only [List.all_cons, Bool.and_eq_true] at hall
      obtain ⟨hsep, hall⟩ := hall
      have hsep' : IsPathSeparator c = false := by simpa using hsep
      have h2 : (c == '.' && atEndOrSep r) = false := by
        cases r with
        | nil =>
          have : c ≠ '.' := fun e => hdot (by rw [e])
          simp [this]
        | cons d r' =>
          simp only [List.all_cons, Bool.and_eq_true] at hall
          have : IsPathSeparator d = false := by simpa using hall.1
          simp [atEndOrSep, this]
      have h3 : (c == '.' && r.head? == some '.' && atEndOrSep r.tail) = false := by
        cases r with
        | nil => simp
        | cons d r' =>
          cases r' with
          | nil =>
            by_cases hc : c = '.'
            · by_cases hd : d = '.'
              · exact absurd (by rw [hc, hd]) hdotdot
              · simp [hd]
            · simp [hc]
          | cons d' r'' =>
            simp only [List.all_cons, Bool.and_eq_true] at hall
            have : IsPathSeparator d' = false := by simpa using hall.2.1
            simp [atEndOrSep, this]
      rw [cleanLoop_cons]
      simp only [hsep', h2, h3, Bool.false_eq_true, if_false,
        takeWhile_of_all r hall, dropWhile_of_all r hall, cleanLoop_nil]

/-- The loop on `..` alone runs the `..` case once. -/
theorem cleanLoop_dotdot (rooted : Bool) (f : Nat) (hf : 2 ≤ f) (st : CleanState) :
    cleanLoop rooted f ['.', '.'] st = dotdotStep rooted st := by
  obtain ⟨f', rfl⟩ : ∃ f', f = f' + 1 := ⟨f - 1, by omega⟩
  rw [cleanLoop_cons]
  have h1 : IsPathSeparator '.' = false := by decide
  have h2 : (('.' : Char) == '.' && atEndOrSep ['.']) = false := by decide
  have h3 : (('.' : Char) == '.' && (['.'] : List Char).head? == some '.'
      && atEndOrSep ([] : List Char)) = true := by decide
  simp only [List.tail_cons, h1, h2, h3, Bool.false_eq_true, if_false, if_true, cleanLoop_nil]

theorem elemStep_out (rooted : Bool) (st : CleanState) (x : List Char) :
    (elemStep rooted st x).out = x.reverse ++ (elemStep rooted st []).out := by
  simp [elemStep]

theorem cleanChars_ne_nil (path : List Char) : cleanChars path ≠ [] := by
  have key : ∀ st : CleanState,
      (if st.out.length = 0 then ['.'] else st.out.reverse) ≠ [] := by
    intro st
    split_ifs with h
    · simp
    · intro h'
      exact h (by rw [List.reverse_eq_nil_iff.1 h']; rfl)
  cases path with
  | nil => simp [cleanChars]
  | cons c rest => exact key _

/-! ### The states the loop reaches -/

theorem initState_out (rooted : Bool) :
    (initState rooted).out.length = (initState rooted).dotdot := by
  cases rooted <;> rfl

theorem extend_ne_nil (body x : List Char) (hx : x ≠ []) : extend body x ≠ [] := by
  unfold extend
  split_ifs <;> simp [hx]

theorem extend_isEmpty (body x : List Char) (hx : x ≠ []) : (extend body x).isEmpty = false := by
  have := extend_ne_nil body x hx
  cases h : extend body x with
  | nil => exact absurd h this
  | cons _ _ => rfl

theorem properElem_ne_nil (x : List Char) (hx : properElem x = true) : x ≠ [] :=
  ((properElem_iff x).1 hx).1

/-- What a reachable state holds: the output is the leading separator of a
rooted path and then the body; the body is empty exactly when nothing was
written after that; `dotdot` is within the output, and is 1 in a rooted
path. -/
theorem Norm.shape {rooted : Bool} {body : List Char} {st : CleanState}
    (h : Norm rooted body st) :
    st.out.reverse = (initState rooted).out ++ body ∧
    (body.isEmpty = true ↔ st.out.length = (initState rooted).out.length) ∧
    st.dotdot ≤ st.out.length ∧
    (rooted = true → st.dotdot = 1) := by
  induction h with
  | init =>
    refine ⟨?_, by simp, le_of_eq (initState_out rooted).symm, ?_⟩
    · cases rooted <;> rfl
    · intro hr; subst hr; rfl
  | elem body st x hn hx ih =>
    obtain ⟨hrev, hemp, hdd, hroot⟩ := ih
    have hxne := properElem_ne_nil x hx
    have hxlen : 0 < x.length := List.length_pos.2 hxne
    have hinit : (initState rooted).out.length = if rooted then 1 else 0 := by
      cases rooted <;> rfl
    refine ⟨?_, ?_, ?_, ?_⟩
    · cases hb : body.isEmpty
      · have hne : st.out.length ≠ (initState rooted).out.length := by
          intro e; rw [← hemp] at e; rw [hb] at e; cases e
        have hcond : ((rooted && st.out.length != 1) || (!rooted && st.out.length != 0))
            = true := by
          cases rooted <;> simp_all
        simp only [elemStep, hcond, if_true, extend, hb, Bool.false_eq_true, if_false,
          List.reverse_append, List.reverse_reverse, List.reverse_cons, hrev]
        simp
      · have he : st.out.length = (initState rooted).out.length := hemp.1 hb
        have hcond : ((rooted && st.out.length != 1) || (!rooted && st.out.length != 0))
            = false := by
          cases rooted <;> simp_all
        have hbody : body = [] := List.isEmpty_iff.1 hb
        subst hbody
        simp only [elemStep, hcond, Bool.false_eq_true, if_false, extend, List.isEmpty_nil,
          if_true, List.reverse_append, List.reverse_reverse, hrev, List.append_nil]
    · rw [extend_isEmpty body x hxne]
      simp only [Bool.false_eq_true, false_iff]
      rw [elemStep_out, List.length_append, List.length_reverse]
      have hge : (initState rooted).out.length ≤ (elemStep rooted st []).out.length := by
        have h1 : (initState rooted).out.length ≤ st.out.length := by
          have := congrArg List.length hrev
          simp only [List.length_reverse, List.length_append] at this
          omega
        simp only [elemStep, List.reverse_nil, List.nil_append]
        split_ifs <;> simp <;> omega
      omega
    · rw [elemStep_out, List.length_append, List.length_reverse]
      have : st.out.length ≤ (elemStep rooted st []).out.length := by
        simp only [elemStep, List.reverse_nil, List.nil_append]
        split_ifs <;> simp
      show st.dotdot ≤ _
      omega
    · intro hr
      exact hroot hr
  | up body st hn hr hlen ih =>
    obtain ⟨hrev, hemp, hdd, hroot⟩ := ih
    subst hr
    have hnot : ¬ st.out.length > st.dotdot := by omega
    have hrev' : st.out.reverse = body := by simpa [initState] using hrev
    refine ⟨?_, ?_, ?_, ?_⟩
    · cases hb : body.isEmpty
      · have hne : st.out.length ≠ 0 := by
          intro e
          have := hemp.2 (by simpa [initState] using e)
          rw [hb] at this; cases this
        have hpos : st.out.length > 0 := Nat.pos_of_ne_zero hne
        simp [dotdotStep, hnot, hpos, extend, hb, initState, hrev']
      · have he : st.out.length = 0 := by simpa [initState] using hemp.1 hb
        have hout : st.out = [] := List.length_eq_zero.1 he
        simp [dotdotStep, hnot, he, extend, hb, initState, hout]
    · rw [extend_isEmpty body _ (by simp)]
      simp only [Bool.false_eq_true, false_iff, dotdotStep, hnot, if_false, Bool.not_false,
        if_true, initState]
      split_ifs <;> simp
    · simp only [dotdotStep, hnot, if_false, Bool.not_false, if_true]
      split_ifs <;> simp
    · intro h; cases h

/-- A reachable state is what the loop makes of its body. -/
theorem Norm.replay {rooted : Bool} {body : List Char} {st : CleanState}
    (h : Norm rooted body st) :
    ∀ f, body.length ≤ f → cleanLoop rooted f body (initState rooted) = st := by
  induction h with
  | init => intro f _; exact cleanLoop_nil rooted f _
  | elem body st x hn hx ih =>
    intro f hf
    cases hb : body.isEmpty
    · simp only [extend, hb, Bool.false_eq_true, if_false] at hf ⊢
      rw [cleanLoop_append rooted x body.length body _ f le_rfl hf, ih _ le_rfl]
      exact cleanLoop_proper rooted x hx _ le_rfl st
    · have hbody : body = [] := List.isEmpty_iff.1 hb
      subst hbody
      have hst := ih 0 le_rfl
      rw [cleanLoop_nil] at hst
      simp only [extend, List.isEmpty_nil, if_true] at hf ⊢
      rw [← hst]
      exact cleanLoop_proper rooted x hx f hf _
  | up body st hn hr hlen ih =>
    intro f hf
    cases hb : body.isEmpty
    · simp only [extend, hb, Bool.false_eq_true, if_false] at hf ⊢
      rw [cleanLoop_append rooted _ body.length body _ f le_rfl hf, ih _ le_rfl]
      exact cleanLoop_dotdot rooted _ le_rfl st
    · have hbody : body = [] := List.isEmpty_iff.1 hb
      subst hbody
      have hst := ih 0 le_rfl
      rw [cleanLoop_nil] at hst
      simp only [extend, List.isEmpty_nil, if_true] at hf ⊢
      rw [← hst]
      exact cleanLoop_dotdot rooted f (by simpa using hf) _

theorem backtrack_cons (dotdot : Nat) (c : Char) (rest : List Char) :
    backtrack dotdot (c :: rest) =
      if decide (rest.length > dotdot) && !IsPathSeparator c then backtrack dotdot rest
      else rest := rfl

/-- Backtracking over an element that follows a separator stops past the
separator. -/
theorem backtrack_sep (dotdot : Nat) (o : List Char) (ho : dotdot ≤ o.length) :
    ∀ y : List Char, y.all (fun b => !IsPathSeparator b) = true →
      backtrack dotdot (y ++ '/' :: o) = o := by
  intro y
  induction y with
  | nil =>
    intro _
    rw [List.nil_append, backtrack_cons, if_neg]
    simp [IsPathSeparator]
  | cons c y ih =>
    intro hall
    simp only [List.all_cons, Bool.and_eq_true] at hall
    have hlen : (y ++ '/' :: o).length > dotdot := by
      simp only [List.length_append, List.length_cons]
      omega
    rw [List.cons_append, backtrack_cons, if_pos]
    · exact ih hall.2
    · simp only [Bool.and_eq_true, decide_eq_true_eq]
      exact ⟨hlen, hall.1⟩

/-- Backtracking over an element that follows no separator stops at
`dotdot`. -/
theorem backtrack_all (dotdot : Nat) (o : List Char) (ho : o.length = dotdot) :
    ∀ y : List Char, y ≠ [] → y.all (fun b => !IsPathSeparator b) = true →
      backtrack dotdot (y ++ o) = o := by
  intro y
  induction y with
  | nil => intro h; exact absurd rfl h
  | cons c y ih =>
    intro _ hall
    simp only [List.all_cons, Bool.and_eq_true] at hall
    cases y with
    | nil =>
      rw [List.cons_append, List.nil_append, backtrack_cons, if_neg]
      simp only [Bool.and_eq_true, decide_eq_true_eq, not_and]
      intro h
      omega
    | cons c' y' =>
      have hlen : (c' :: y' ++ o).length > dotdot := by
        simp only [List.cons_append, List.length_cons, List.length_append]
        omega
      rw [List.cons_append, backtrack_cons, if_pos]
      · exact ih (by simp) hall.2
      · simp only [Bool.and_eq_true, decide_eq_true_eq]
        exact ⟨hlen, hall.1⟩

/-- The `..` case takes a reachable state to a reachable state. -/
theorem Norm.after_dotdotStep {rooted : Bool} {body : List Char} {st : CleanState}
    (h : Norm rooted body st) : ∃ body', Norm rooted body' (dotdotStep rooted st) := by
  cases h with
  | init =>
    cases rooted
    · exact ⟨_, Norm.up [] _ Norm.init rfl rfl⟩
    · exact ⟨[], Norm.init⟩
  | elem body st x hn hx =>
    refine ⟨body, ?_⟩
    obtain ⟨hrev, hemp, hdd, hroot⟩ := hn.shape
    obtain ⟨hne, hall, -, -⟩ := (properElem_iff x).1 hx
    have hxlen : 0 < x.length := List.length_pos.2 hne
    have hall' : x.reverse.all (fun b => !IsPathSeparator b) = true := by
      rw [List.all_reverse]; exact hall
    have hback : backtrack st.dotdot (elemStep rooted st x).out = st.out := by
      by_cases hcond : ((rooted && st.out.length != 1) || (!rooted && st.out.length != 0)) = true
      · simp only [elemStep, hcond, if_true]
        exact backtrack_sep st.dotdot st.out hdd x.reverse hall'
      · simp only [elemStep, hcond, if_false, Bool.false_eq_true]
        have hlen : st.out.length = st.dotdot := by
          cases rooted
          · have : st.out.length = 0 := by simpa using hcond
            omega
          · have h1 : st.out.length = 1 := by simpa using hcond
            rw [h1, hroot rfl]
        exact backtrack_all st.dotdot st.out hlen x.reverse (by simpa using hne) hall'
    have hgt : (elemStep rooted st x).out.length > (elemStep rooted st x).dotdot := by
      rw [elemStep_out, List.length_append, List.length_reverse]
      show _ > st.dotdot
      have : st.out.length ≤ (elemStep rooted st []).out.length := by
        simp only [elemStep, List.reverse_nil, List.nil_append]
        split_ifs <;> simp
      omega
    have heq : dotdotStep rooted (elemStep rooted st x) = st := by
      simp only [dotdotStep, hgt, if_true]
      show ({ out := backtrack st.dotdot (elemStep rooted st x).out, dotdot := st.dotdot }
        : CleanState) = st
      rw [hback]
    rw [heq]
    exact hn
  | up body st hn hr hlen =>
    subst hr
    refine ⟨_, Norm.up _ _ (Norm.up body st hn rfl hlen) rfl ?_⟩
    have hnot : ¬ st.out.length > st.dotdot := by omega
    simp only [dotdotStep, hnot, if_false, Bool.not_false, if_true]
    split_ifs <;> simp

theorem takeWhile_all (r : List Char) :
    (r.takeWhile (fun b => !IsPathSeparator b)).all (fun b => !IsPathSeparator b) = true := by
  induction r with
  | nil => rfl
  | cons d r ih =>
    simp only [List.takeWhile_cons]
    split
    · rename_i h
      simp only [List.all_cons, Bool.and_eq_true]
      exact ⟨h, ih⟩
    · rfl

theorem atEndOrSep_of_takeWhile_nil (r : List Char)
    (h : r.takeWhile (fun b => !IsPathSeparator b) = []) : atEndOrSep r = true := by
  cases r with
  | nil => rfl
  | cons d r =>
    simp only [List.takeWhile_cons] at h
    split at h
    · cases h
    · rename_i hd
      simpa [atEndOrSep] using hd

/-- The element that the default case copies is a proper element. -/
theorem default_proper (c : Char) (rest : List Char) (h1 : IsPathSeparator c = false)
    (h2 : (c == '.' && atEndOrSep rest) = false)
    (h3 : (c == '.' && rest.head? == some '.' && atEndOrSep rest.tail) = false) :
    properElem (c :: rest.takeWhile (fun b => !IsPathSeparator b)) = true := by
  rw [properElem_iff]
  refine ⟨by simp, ?_, ?_, ?_⟩
  · simp only [List.all_cons, Bool.and_eq_true]
    exact ⟨by simp [h1], takeWhile_all rest⟩
  · intro e
    simp only [List.cons.injEq] at e
    have := atEndOrSep_of_takeWhile_nil rest e.2
    rw [e.1, this] at h2
    simp at h2
  · intro e
    simp only [List.cons.injEq] at e
    obtain ⟨hc, ht⟩ := e
    cases rest with
    | nil => simp at ht
    | cons d r =>
      simp only [List.takeWhile_cons] at ht
      split at ht
      · simp only [List.cons.injEq] at ht
        have := atEndOrSep_of_takeWhile_nil r ht.2
        rw [hc, ht.1] at h3
        simp [this] at h3
      · cases ht

/-- The loop takes a reachable state to a reachable state. -/
theorem Norm.after_cleanLoop {rooted : Bool} (fuel : Nat) :
    ∀ (rest : List Char) (body : List Char) (st : CleanState), Norm rooted body st →
      ∃ body', Norm rooted body' (cleanLoop rooted fuel rest st) := by
  induction fuel with
  | zero => intro rest body st h; exact ⟨body, h⟩
  | succ fuel ih =>
    intro rest body st h
    cases rest with
    | nil => exact ⟨body, h⟩
    | cons c r =>
      rw [cleanLoop_cons]
      split_ifs with h1 h2 h3
      · exact ih r body st h
      · exact ih r body st h
      · obtain ⟨body', h'⟩ := h.after_dotdotStep
        exact ih _ body' _ h'
      · exact ih _ _ _ (Norm.elem body st _ h
          (default_proper c r (by simpa using h1) (by simpa using h2) (by simpa using h3)))

/-- The body of a path that is not rooted does not start with a separator. -/
theorem Norm.head {body : List Char} {st : CleanState} (h : Norm false body st) :
    ∀ c, body.head? = some c → IsPathSeparator c = false := by
  have key : ∀ (rooted : Bool) (body : List Char) (st : CleanState), Norm rooted body st →
      rooted = false → ∀ c, body.head? = some c → IsPathSeparator c = false := by
    intro rooted body st hn
    induction hn with
    | init => intro _ c hc; simp at hc
    | elem body st x hn hx ih =>
      intro hr c hc
      cases body with
      | nil =>
        obtain ⟨hne, hall, -, -⟩ := (properElem_iff x).1 hx
        cases x with
        | nil => exact absurd rfl hne
        | cons d x' =>
          simp only [extend, List.isEmpty_nil, if_true, List.head?_cons,
            Option.some.injEq] at hc
          simp only [List.all_cons, Bool.and_eq_true] at hall
          rw [← hc]
          simpa using hall.1
      | cons b bs =>
        simp only [extend, List.isEmpty_cons, Bool.false_eq_true, if_false, List.cons_append,
          List.head?_cons, Option.some.injEq] at hc
        exact ih hr c (by simp [hc])
    | up body st hn hr' hlen ih =>
      intro hr c hc
      cases body with
      | nil =>
        simp only [extend, List.isEmpty_nil, if_true, List.head?_cons, Option.some.injEq] at hc
        rw [← hc]
        decide
      | cons b bs =>
        simp only [extend, List.isEmpty_cons, Bool.false_eq_true, if_false, List.cons_append,
          List.head?_cons, Option.some.injEq] at hc
        exact ih hr c (by simp [hc])
  exact key false body st h rfl

/-- The body of a reachable state is not the path `.`. -/
theorem Norm.ne_dot {rooted : Bool} {body : List Char} {st : CleanState}
    (h : Norm rooted body st) : body ≠ ['.'] := by
  cases h with
  | init => simp
  | elem body st x hn hx =>
    obtain ⟨-, -, hdot, -⟩ := (properElem_iff x).1 hx
    cases body with
    | nil => simpa [extend] using hdot
    | cons b bs => simp [extend]
  | up body st hn hr hlen =>
    cases body with
    | nil => simp [extend]
    | cons b bs => simp [extend]

/-- What `Clean` returns, as a reachable state: the output of the state, or `.`
when the output is empty. -/
theorem cleanChars_norm (c : Char) (rest : List Char) :
    ∃ body st, Norm (IsPathSeparator c) body st ∧
      cleanChars (c :: rest) = if st.out.length = 0 then ['.'] else st.out.reverse := by
  by_cases hroot : IsPathSeparator c = true
  · obtain ⟨body, hn⟩ := @Norm.after_cleanLoop true (c :: rest).length rest []
      (initState true) Norm.init
    refine ⟨body, _, by rw [hroot]; exact hn, ?_⟩
    simp only [cleanChars, hroot, if_true]
    rfl
  · have hroot' : IsPathSeparator c = false := by simpa using hroot
    obtain ⟨body, hn⟩ := @Norm.after_cleanLoop false (c :: rest).length (c :: rest) []
      (initState false) Norm.init
    refine ⟨body, _, by rw [hroot']; exact hn, ?_⟩
    simp only [cleanChars, hroot', Bool.false_eq_true, if_false]
    rfl

/-- The prefix that `Clean` writes for a cleaned directory `W` before the last
element is `W/`, or `/` when `W` is the root, or nothing when `W` is `.`. -/
theorem dirPrefix_cleanChars (p : List Char) : dirPrefix (cleanChars p) = asDir (cleanChars p) := by
  cases p with
  | nil => decide
  | cons c rest =>
    obtain ⟨body, st, hn, hclean⟩ := cleanChars_norm c rest
    obtain ⟨hrev, hemp, hdd, hroot⟩ := hn.shape
    have hreplay := hn.replay body.length le_rfl
    rw [hclean]
    by_cases hr : IsPathSeparator c = true
    · rw [hr] at hn hrev hemp hreplay
      have hrev' : st.out.reverse = '/' :: body := hrev
      have hlen : st.out.length = body.length + 1 := by
        have := congrArg List.length hrev'
        simpa using this
      have hne0 : ¬ st.out.length = 0 := by omega
      rw [if_neg hne0, hrev']
      have hsep : IsPathSeparator '/' = true := rfl
      have hst : cleanLoop true body.length body { out := ['/'], dotdot := 1 } = st := hreplay
      simp only [dirPrefix, hsep, if_true, hst]
      cases hb : body.isEmpty
      · have hbne : body ≠ [] := by
          intro e; rw [e] at hb; cases hb
        have hne1 : st.out.length ≠ 1 := by
          intro e
          have := hemp.2 (by simpa [initState] using e)
          rw [hb] at this; cases this
        have hW1 : ¬ ('/' :: body = ['/']) := by simpa using hbne
        have hW2 : ¬ ('/' :: body = ['.']) := by simp
        simp [elemStep, hne1, asDir, hW1, hW2, hrev']
      · have hbody : body = [] := List.isEmpty_iff.1 hb
        subst hbody
        have he1 : st.out.length = 1 := by simpa using hlen
        simp [elemStep, he1, asDir, hrev']
    · have hr' : IsPathSeparator c = false := by simpa using hr
      rw [hr'] at hn hrev hemp hreplay
      have hrev' : st.out.reverse = body := hrev
      have hlen : st.out.length = body.length := by
        have := congrArg List.length hrev'
        simpa using this
      cases body with
      | nil =>
        have he0 : st.out.length = 0 := by simpa using hlen
        rw [if_pos he0]
        decide
      | cons b bs =>
        have hne0 : ¬ st.out.length = 0 := by
          rw [hlen]; simp
        rw [if_neg hne0, hrev']
        have hsep : IsPathSeparator b = false := hn.head b rfl
        have hst : cleanLoop false (b :: bs).length (b :: bs) { out := [], dotdot := 0 } = st :=
          hreplay
        have hW1 : ¬ (b :: bs = ['/']) := by
          intro e
          simp only [List.cons.injEq] at e
          rw [e.1] at hsep
          cases hsep
        have hW2 : ¬ (b :: bs = ['.']) := hn.ne_dot
        simp only [dirPrefix, hsep, Bool.false_eq_true, if_false, hst]
        simp [elemStep, hne0, asDir, hW1, hW2, hrev']

/-- The prefix that `Clean` writes for any directory `dir` that is not empty is
the one of the cleaned directory. -/
theorem dirPrefix_eq_asDir (p : List Char) (hp : p ≠ []) :
    dirPrefix p = asDir (cleanChars p) := by
  cases p with
  | nil => exact absurd rfl hp
  | cons c rest =>
    by_cases hr : IsPathSeparator c = true
    · obtain ⟨body, hn⟩ := @Norm.after_cleanLoop true rest.length rest [] (initState true)
        Norm.init
      have hfuel : cleanLoop true (c :: rest).length rest { out := ['/'], dotdot := 1 }
          = cleanLoop true rest.length rest { out := ['/'], dotdot := 1 } :=
        cleanLoop_fuel true _ _ rest _ (by simp) le_rfl
      have hinit : initState true = { out := ['/'], dotdot := 1 } := rfl
      rw [hinit] at hn
      generalize hst : cleanLoop true rest.length rest { out := ['/'], dotdot := 1 } = st
        at hn hfuel
      obtain ⟨hrev, hemp, hdd, hroot⟩ := hn.shape
      have hrev' : st.out.reverse = '/' :: body := hrev
      have hlen : st.out.length = body.length + 1 := by
        have := congrArg List.length hrev'
        simpa using this
      have hne0 : ¬ st.out.length = 0 := by omega
      simp only [dirPrefix, cleanChars, hr, if_true, hfuel, hst, if_neg hne0, hrev']
      cases hb : body.isEmpty
      · have hbne : body ≠ [] := by
          intro e; rw [e] at hb; cases hb
        have hne1 : st.out.length ≠ 1 := by
          intro e
          have := hemp.2 (by simpa [initState] using e)
          rw [hb] at this; cases this
        have hW1 : ¬ ('/' :: body = ['/']) := by simpa using hbne
        have hW2 : ¬ ('/' :: body = ['.']) := by simp
        simp [elemStep, hne1, asDir, hW1, hW2, hrev']
      · have hbody : body = [] := List.isEmpty_iff.1 hb
        subst hbody
        have he1 : st.out.length = 1 := by simpa using hlen
        simp [elemStep, he1, asDir, hrev']
    · have hr' : IsPathSeparator c = false := by simpa using hr
      obtain ⟨body, hn⟩ := @Norm.after_cleanLoop false (c :: rest).length (c :: rest) []
        (initState false) Norm.init
      have hinit : initState false = { out := [], dotdot := 0 } := rfl
      rw [hinit] at hn
      generalize hst : cleanLoop false (c :: rest).length (c :: rest) { out := [], dotdot := 0 }
        = st at hn
      obtain ⟨hrev, hemp, hdd, hroot⟩ := hn.shape
      have hrev' : st.out.reverse = body := hrev
      have hlen : st.out.length = body.length := by
        have := congrArg List.length hrev'
        simpa using this
      simp only [dirPrefix, cleanChars, hr', Bool.false_eq_true, if_false, hst]
      cases body with
      | nil =>
        have he0 : st.out.length = 0 := by simpa using hlen
        have hout : st.out = [] := List.length_eq_zero.1 he0
        simp [elemStep, he0, hout, asDir]
      | cons b bs =>
        have hne0 : ¬ st.out.length = 0 := by
          rw [hlen]; simp
        have hsep : IsPathSeparator b = false := hn.head b rfl
        have hW1 : ¬ (b :: bs = ['/']) := by
          intro e
          simp only [List.cons.injEq] at e
          rw [e.1] at hsep
          cases hsep
        have hW2 : ¬ (b :: bs = ['.']) := hn.ne_dot
        rw [if_neg hne0, hrev']
        simp [elemStep, hne0, asDir, hW1, hW2, hrev']

/-- The function `Clean` leaves a proper element as it is. -/
theorem cleanChars_proper (x : List Char) (hx : properElem x = true) : cleanChars x = x := by
  obtain ⟨hne, hall, -, -⟩ := (properElem_iff x).1 hx
  cases x with
  | nil => exact absurd rfl hne
  | cons c r =>
    simp only [List.all_cons, Bool.and_eq_true] at hall
    have hsep : IsPathSeparator c = false := by simpa using hall.1
    simp only [cleanChars, hsep, Bool.false_eq_true, if_false]
    rw [cleanLoop_proper false (c :: r) hx _ le_rfl]
    simp [elemStep]

/-- The function `Clean` gives a cleaned path back as it is. -/
theorem cleanChars_idempotent (p : List Char) : cleanChars (cleanChars p) = cleanChars p := by
  cases p with
  | nil => decide
  | cons c rest =>
    obtain ⟨body, st, hn, hclean⟩ := cleanChars_norm c rest
    obtain ⟨hrev, hemp, hdd, hroot⟩ := hn.shape
    rw [hclean]
    by_cases hr : IsPathSeparator c = true
    · rw [hr] at hn hrev hemp
      have hrev' : st.out.reverse = '/' :: body := hrev
      have hlen : st.out.length = body.length + 1 := by
        have := congrArg List.length hrev'
        simpa using this
      have hne0 : ¬ st.out.length = 0 := by omega
      have hst : cleanLoop true ('/' :: body).length body { out := ['/'], dotdot := 1 } = st :=
        hn.replay _ (by simp)
      rw [if_neg hne0, hrev']
      have hsep : IsPathSeparator '/' = true := rfl
      simp only [cleanChars, hsep, if_true, hst, if_neg hne0, hrev']
    · have hr' : IsPathSeparator c = false := by simpa using hr
      rw [hr'] at hn hrev hemp
      have hrev' : st.out.reverse = body := hrev
      have hlen : st.out.length = body.length := by
        have := congrArg List.length hrev'
        simpa using this
      cases body with
      | nil =>
        have he0 : st.out.length = 0 := by simpa using hlen
        rw [if_pos he0]
        decide
      | cons b bs =>
        have hne0 : ¬ st.out.length = 0 := by
          rw [hlen]; simp
        have hsep : IsPathSeparator b = false := hn.head b rfl
        have hst : cleanLoop false (b :: bs).length (b :: bs) { out := [], dotdot := 0 } = st :=
          hn.replay _ le_rfl
        rw [if_neg hne0, hrev']
        simp only [cleanChars, hsep, Bool.false_eq_true, if_false, hst, if_neg hne0, hrev']

/-- The result of `Clean` on `dir/x` for a directory that is not empty and a
proper element `x`: a prefix that depends on `dir` alone, then `x`. -/
theorem cleanChars_append_proper (dir x : List Char) (hdir : dir ≠ [])
    (hx : properElem x = true) :
    cleanChars (dir ++ '/' :: x) = dirPrefix dir ++ x := by
  have hxne : x ≠ [] := properElem_ne_nil x hx
  cases dir with
  | nil => exact absurd rfl hdir
  | cons c rest =>
    have key : ∀ st : CleanState, ¬ ((elemStep (IsPathSeparator c) st x).out.length = 0) := by
      intro st h
      rw [elemStep_out, List.length_append, List.length_reverse] at h
      have : x.length = 0 := by omega
      exact hxne (List.length_eq_zero.1 this)
    simp only [cleanChars, dirPrefix, List.cons_append]
    by_cases hroot : IsPathSeparator c = true
    · simp only [hroot, if_true]
      rw [cleanLoop_append true x rest.length rest _ _ le_rfl (by simp),
        cleanLoop_proper true x hx _ le_rfl]
      have := key (cleanLoop true rest.length rest { out := ['/'], dotdot := 1 })
      rw [hroot] at this
      rw [if_neg this, elemStep_out, List.reverse_append, List.reverse_reverse]
    · have hroot' : IsPathSeparator c = false := by simpa using hroot
      simp only [hroot', Bool.false_eq_true, if_false]
      have h1 := cleanLoop_append false x (c :: rest).length (c :: rest)
        { out := [], dotdot := 0 } (c :: (rest ++ '/' :: x)).length le_rfl (by simp)
      rw [List.cons_append] at h1
      rw [h1, cleanLoop_proper false x hx _ le_rfl]
      have := key (cleanLoop false (c :: rest).length (c :: rest) { out := [], dotdot := 0 })
      rw [hroot'] at this
      rw [if_neg this, elemStep_out, List.reverse_append, List.reverse_reverse]

theorem mk_ne_empty (l : List Char) (hl : l ≠ []) : String.mk l ≠ "" := by
  intro h
  exact hl (congrArg String.data h)

/-- A path that `Join` makes of two elements the second of which is not empty
is a result of `Clean`. -/
theorem Join_clean (a b : String) (hb : b ≠ "") :
    ∃ p, Join [a, b] = String.mk (cleanChars p) := by
  unfold Join
  split_ifs with ha
  · exact ⟨_, rfl⟩
  · unfold Join
    rw [if_pos hb]
    exact ⟨_, rfl⟩

theorem Join_ne_empty (a b : String) (hb : b ≠ "") : Join [a, b] ≠ "" := by
  obtain ⟨p, hp⟩ := Join_clean a b hb
  rw [hp]
  exact mk_ne_empty _ (cleanChars_ne_nil p)

/-- The path `Join(dir, x)` for a directory that is not empty and a proper
element. -/
theorem Join_proper (dir x : String) (hdir : dir ≠ "") (hx : properElem x.data = true) :
    Join [dir, x] = String.mk (dirPrefix dir.data ++ x.data) := by
  have hd : dir.data ≠ [] := by
    intro h
    apply hdir
    cases dir
    simp_all
  unfold Join
  rw [if_pos hdir]
  simp only [joinChars]
  rw [cleanChars_append_proper dir.data x.data hd hx]

/-- Two proper elements that differ give paths that differ. -/
theorem Join_proper_ne (dir x y : String) (hdir : dir ≠ "") (hx : properElem x.data = true)
    (hy : properElem y.data = true) (hxy : x ≠ y) : Join [dir, x] ≠ Join [dir, y] := by
  rw [Join_proper dir x hdir hx, Join_proper dir y hdir hy]
  intro h
  have h1 : dirPrefix dir.data ++ x.data = dirPrefix dir.data ++ y.data := congrArg String.data h
  have h2 := List.append_cancel_left h1
  apply hxy
  cases x
  cases y
  simp_all

end filepath

/-- Under a cleaned directory `W`, `filepath.Join(W, x)` is `x` directly under
`W`. -/
theorem Join_underDir (W x : String) (hW : ∃ p, W = String.mk (filepath.cleanChars p))
    (hx : filepath.properElem x.data = true) : filepath.Join [W, x] = underDir W x := by
  obtain ⟨p, rfl⟩ := hW
  have hne : String.mk (filepath.cleanChars p) ≠ "" :=
    filepath.mk_ne_empty _ (filepath.cleanChars_ne_nil p)
  rw [filepath.Join_proper _ x hne hx]
  show String.mk (filepath.dirPrefix (filepath.cleanChars p) ++ x.data) = _
  rw [filepath.dirPrefix_cleanChars]
  have hmk : ∀ l : List Char, (String.mk (filepath.cleanChars p) = String.mk l)
      ↔ filepath.cleanChars p = l := by
    intro l
    constructor
    · intro h; exact congrArg String.data h
    · intro h; rw [h]
  have h1 : (String.mk (filepath.cleanChars p) = "/") ↔ filepath.cleanChars p = ['/'] := hmk _
  have h2 : (String.mk (filepath.cleanChars p) = ".") ↔ filepath.cleanChars p = ['.'] := hmk _
  unfold underDir filepath.asDir
  by_cases c1 : filepath.cleanChars p = ['/']
  · rw [if_pos c1, if_pos (h1.2 c1)]
    rfl
  · rw [if_neg c1, if_neg (fun h => c1 (h1.1 h))]
    by_cases c2 : filepath.cleanChars p = ['.']
    · rw [if_pos c2, if_pos (h2.2 c2)]
      rfl
    · rw [if_neg c2, if_neg (fun h => c2 (h2.1 h))]
      apply String.ext
      simp [String.data_append]

theorem asDir_injective (l1 l2 : List Char) (h1 : l1 ≠ []) (h2 : l2 ≠ [])
    (h : filepath.asDir l1 = filepath.asDir l2) : l1 = l2 := by
  have hgen : ∀ l : List Char, l ≠ [] → l ≠ ['/'] → l ≠ ['.'] →
      filepath.asDir l = l ++ ['/'] ∧ 2 ≤ (filepath.asDir l).length := by
    intro l hl hs hd
    have hlen : 0 < l.length := List.length_pos.2 hl
    simp only [filepath.asDir, if_neg hs, if_neg hd, List.length_append, List.length_singleton,
      true_and]
    omega
  have hroot : filepath.asDir ['/'] = ['/'] := by decide
  have hdot : filepath.asDir ['.'] = [] := by decide
  by_cases a1 : l1 = ['/']
  · by_cases a2 : l2 = ['/']
    · rw [a1, a2]
    · by_cases b2 : l2 = ['.']
      · rw [a1, b2, hroot, hdot] at h
        cases h
      · have := (hgen l2 h2 a2 b2).2
        rw [← h, a1, hroot] at this
        simp at this
  · by_cases b1 : l1 = ['.']
    · by_cases a2 : l2 = ['/']
      · rw [b1, a2, hroot, hdot] at h
        cases h
      · by_cases b2 : l2 = ['.']
        · rw [b1, b2]
        · have := (hgen l2 h2 a2 b2).2
          rw [← h, b1, hdot] at this
          simp at this
    · have g1 := hgen l1 h1 a1 b1
      by_cases a2 : l2 = ['/']
      · have := g1.2
        rw [h, a2, hroot] at this
        simp at this
      · by_cases b2 : l2 = ['.']
        · have := g1.2
          rw [h, b2, hdot] at this
          simp at this
        · have g2 := hgen l2 h2 a2 b2
          rw [g1.1, g2.1] at h
          exact List.append_cancel_right h

theorem underDir_data (W name : String) :
    (underDir W name).data = filepath.asDir W.data ++ name.data := by
  have hmk : ∀ l : List Char, (W = String.mk l) ↔ W.data = l := by
    intro l
    constructor
    · intro h; rw [h]
    · intro h; rw [← h]
  have h1 : (W = "/") ↔ W.data = ['/'] := hmk _
  have h2 : (W = ".") ↔ W.data = ['.'] := hmk _
  unfold underDir filepath.asDir
  by_cases c1 : W.data = ['/']
  · rw [if_pos c1, if_pos (h1.2 c1)]
    rfl
  · rw [if_neg c1, if_neg (fun h => c1 (h1.1 h))]
    by_cases c2 : W.data = ['.']
    · rw [if_pos c2, if_pos (h2.2 c2)]
      rfl
    · rw [if_neg c2, if_neg (fun h => c2 (h2.1 h))]
      simp [String.data_append]

/-- The name `runc-` followed by a snapshotter name without a separator is a
proper path element. -/
theorem runc_name_proper (name : String)
    (hname : name.data.all (fun b => !filepath.IsPathSeparator b) = true) :
    filepath.properElem ("runc-" ++ name).data = true := by
  have hdata : ("runc-" ++ name).data = 'r' :: 'u' :: 'n' :: 'c' :: '-' :: name.data := by
    rw [String.data_append]
    rfl
  rw [hdata, filepath.properElem_iff]
  refine ⟨by simp, ?_, by simp, by simp⟩
  simp only [List.all_cons, Bool.and_eq_true]
  exact ⟨by decide, by decide, by decide, by decide, by decide, hname⟩

/-- For every directory `dir`, cleaned or not, empty or not, and a proper element
`x`, `filepath.Join(dir, x)` is `x` directly under the cleaned directory. -/
theorem Join_under_Clean (dir x : String) (hx : filepath.properElem x.data = true) :
    filepath.Join [dir, x] = underDir (filepath.Clean dir) x := by
  have hxne : x ≠ "" := by
    intro e
    rw [e] at hx
    exact absurd hx (by decide)
  apply String.ext
  rw [underDir_data]
  by_cases hdir : dir = ""
  · subst hdir
    have h1 : filepath.Join ["", x] = String.mk (filepath.cleanChars x.data) := by
      unfold filepath.Join
      rw [if_neg (by simp)]
      unfold filepath.Join
      rw [if_pos hxne]
      rfl
    rw [h1, filepath.cleanChars_proper x.data hx]
    rfl
  · have hd : dir.data ≠ [] := by
      intro h
      apply hdir
      cases dir
      simp_all
    rw [filepath.Join_proper dir x hdir hx]
    show filepath.dirPrefix dir.data ++ x.data = filepath.asDir (filepath.cleanChars dir.data) ++ x.data
    rw [filepath.dirPrefix_eq_asDir dir.data hd]

/-- The prefix of a directory ends with a separator when it is not empty. -/
theorem asDir_getLast (W : List Char) :
    filepath.asDir W = [] ∨ (filepath.asDir W).getLast? = some '/' := by
  unfold filepath.asDir
  split_ifs
  · right; rfl
  · left; rfl
  · right; simp

/-- Two paths `a1 ++ x1` and `a2 ++ x2`, where `a1` and `a2` end with a separator
when they are not empty and `x1` and `x2` hold none, are equal only when the
parts are. -/
theorem split_at_last_sep (a1 a2 x1 x2 : List Char)
    (h1 : a1 = [] ∨ a1.getLast? = some '/') (h2 : a2 = [] ∨ a2.getLast? = some '/')
    (hx1 : x1.all (fun b => !filepath.IsPathSeparator b) = true)
    (hx2 : x2.all (fun b => !filepath.IsPathSeparator b) = true)
    (h : a1 ++ x1 = a2 ++ x2) : a1 = a2 ∧ x1 = x2 := by
  have key : ∀ (a b m y : List Char), (b = [] ∨ b.getLast? = some '/') →
      y.all (fun c => !filepath.IsPathSeparator c) = true → b = a ++ m → (∀ c ∈ m, c ∈ y) →
      m = [] := by
    intro a b m y hb hy hbm hm
    by_contra hne
    have hlast : b.getLast? = m.getLast? := by
      rw [hbm, List.getLast?_append_of_ne_nil _ hne]
    rcases hb with hb | hb
    · rw [hb] at hbm
      have := congrArg List.length hbm
      simp only [List.length_nil, List.length_append] at this
      have : m.length = 0 := by omega
      exact hne (List.length_eq_zero.1 this)
    · rw [hb] at hlast
      have hmem : '/' ∈ m := List.mem_of_getLast?_eq_some hlast.symm
      have := List.all_eq_true.1 hy '/' (hm _ hmem)
      simp [filepath.IsPathSeparator] at this
  rcases List.append_eq_append_iff.1 h with ⟨m, ha, hx⟩ | ⟨m, ha, hx⟩
  · have hm : m = [] := key a1 a2 m x1 h2 hx1 ha (by
      intro c hc; rw [hx]; exact List.mem_append_left _ hc)
    subst hm
    simp only [List.append_nil, List.nil_append] at ha hx
    exact ⟨ha.symm, hx⟩
  · have hm : m = [] := key a2 a1 m x2 h1 hx2 ha (by
      intro c hc; rw [hx]; exact List.mem_append_left _ hc)
    subst hm
    simp only [List.append_nil, List.nil_append] at ha hx
    exact ⟨ha, hx.symm⟩

/-- Two worker directories for snapshotter names without a separator are equal
exactly when the cleaned roots are equal and the names are equal. -/
theorem workerDir_eq_iff (root1 root2 : String) (snFactory1 snFactory2 : SnapshotterFactory)
    (hn1 : snFactory1.Name.data.all (fun b => !filepath.IsPathSeparator b) = true)
    (hn2 : snFactory2.Name.data.all (fun b => !filepath.IsPathSeparator b) = true) :
    workerDir root1 snFactory1 = workerDir root2 snFactory2 ↔
      filepath.Clean root1 = filepath.Clean root2 ∧ snFactory1.Name = snFactory2.Name := by
  have hW1 : workerDir root1 snFactory1
      = underDir (filepath.Clean root1) ("runc-" ++ snFactory1.Name) :=
    Join_under_Clean root1 _ (runc_name_proper _ hn1)
  have hW2 : workerDir root2 snFactory2
      = underDir (filepath.Clean root2) ("runc-" ++ snFactory2.Name) :=
    Join_under_Clean root2 _ (runc_name_proper _ hn2)
  have hdata : ∀ name : String, ("runc-" ++ name).data
      = 'r' :: 'u' :: 'n' :: 'c' :: '-' :: name.data := by
    intro name
    rw [String.data_append]
    rfl
  have hall : ∀ name : String, name.data.all (fun b => !filepath.IsPathSeparator b) = true →
      ("runc-" ++ name).data.all (fun b => !filepath.IsPathSeparator b) = true := by
    intro name hname
    rw [hdata]
    simp only [List.all_cons, Bool.and_eq_true]
    exact ⟨by decide, by decide, by decide, by decide, by decide, hname⟩
  constructor
  · intro h
    rw [hW1, hW2] at h
    have hd := congrArg String.data h
    rw [underDir_data, underDir_data] at hd
    obtain ⟨ha, hx⟩ := split_at_last_sep _ _ _ _ (asDir_getLast _) (asDir_getLast _)
      (hall _ hn1) (hall _ hn2) hd
    have hc : (filepath.Clean root1).data = (filepath.Clean root2).data :=
      asDir_injective _ _ (filepath.cleanChars_ne_nil _) (filepath.cleanChars_ne_nil _) ha
    rw [hdata, hdata] at hx
    simp only [List.cons.injEq, true_and] at hx
    exact ⟨String.ext hc, String.ext hx⟩
  · rintro ⟨hc, hn⟩
    rw [hW1, hW2, hc, hn]

theorem workerDir_clean (root : String) (snFactory : SnapshotterFactory) :
    ∃ p, workerDir root snFactory = String.mk (filepath.cleanChars p) := by
  unfold workerDir
  apply filepath.Join_clean
  intro h
  have := congrArg String.length h
  simp only [String.length_append] at this
  have h5 : "runc-".length = 5 := by decide
  have h0 : "".length = 0 := by decide
  omega

theorem workerDir_ne_empty (root : String) (snFactory : SnapshotterFactory) :
    workerDir root snFactory ≠ "" := by
  obtain ⟨p, hp⟩ := workerDir_clean root snFactory
  rw [hp]
  exact filepath.mk_ne_empty _ (filepath.cleanChars_ne_nil p)

/-! ## Lemmas on `NewWorkerOpt` -/

/-- A successful call: the nine results and the value returned. -/
theorem NewWorkerOpt_ok (env : Env) (root : String) (snFactory : SnapshotterFactory)
    (rootless : Bool) (processMode : ProcessMode) (labels : LabelMap)
    (idmap : Option IdentityMapping) (nopt : NetOpt) (dns : Option DNSConfig)
    (h : (NewWorkerOpt env root snFactory rootless processMode labels idmap nopt dns).err = none) :
    ∃ md np exe s c0 db id,
      env.MkdirAll (workerDir root snFactory) 0o700 = none ∧
      env.NewStore (filepath.Join [workerDir root snFactory, "metadata.db"]) = .ok md ∧
      env.Providers nopt = .ok np ∧
      env.RuncNew
        { Root := filepath.Join [workerDir root snFactory, "executor"], Rootless := rootless,
          ProcessMode := processMode, IdentityMapping := idmap, DNS := dns } np = .ok exe ∧
      snFactory.New (filepath.Join [workerDir root snFactory, "snapshots"]) = .ok s ∧
      env.LocalNewStore (filepath.Join [workerDir root snFactory, "content"]) = .ok c0 ∧
      env.BoltOpen (filepath.Join [workerDir root snFactory, "containerdmeta.db"]) 0o644 = .ok db ∧
      env.MdbInit { db := db, cs := c0, ss := [(snFactory.Name, s)] } Context.TODO = none ∧
      env.ID (workerDir root snFactory) = .ok id ∧
      (NewWorkerOpt env root snFactory rootless processMode labels idmap nopt dns).opt =
        (let mdb : MetaDB := { db := db, cs := c0, ss := [(snFactory.Name, s)] }
         let gc : GCFunc := { throttledGC := { d := time.Second, f := { mdb := mdb } } }
         let c := ContentStore.namespaced (ContentStore.ofDB mdb) "buildkit" gc
         { ID := id
           Labels := some (mergeLabels (env.Labels "oci" snFactory.Name) labels)
           MetadataStore := some md
           Executor := some exe
           Snapshotter := some
             { name := snFactory.Name, snapshotter := { mdb := mdb, name := snFactory.Name },
               store := c, mdstore := md, ns := "buildkit", gc := gc, idmap := idmap }
           ContentStore := some c
           Applier := some { cs := c, innerCs := c }
           Differ := some { store := c, innerStore := c }
           ImageStore := none
           Platforms := [env.DefaultPlatform]
           IdentityMapping := idmap
           LeaseManager := some { mdb := mdb, ns := "buildkit" } }) := by
  unfold NewWorkerOpt at h ⊢
  simp only [workerDir] at *
  split at h
  · simp at h
  split at h
  · simp at h
  split at h
  · simp at h
  split at h
  · simp at h
  split at h
  · simp at h
  split at h
  · simp at h
  split at h
  · simp at h
  split at h
  · simp at h
  split at h
  · simp at h
  rename_i _ h1 _ md h2 _ np h3 _ exe h4 _ s h5 _ c0 h6 _ db h7 _ h8 _ id h9
  refine ⟨md, np, exe, s, c0, db, id, h1, h2, h3, h4, h5, h6, h7, h8, h9, ?_⟩
  simp only [h1, h2, h3, h4, h5, h6, h7, h8, h9]

/-- The shape of every call: the steps run are the first steps of `stepOrder`, all
but the last one succeeded, the error returned is the result of the last one, a
call that returns an error returns the zero value, and a call that returns no
error ran all nine steps. -/
theorem NewWorkerOpt_trace (env : Env) (root : String) (snFactory : SnapshotterFactory)
    (rootless : Bool) (processMode : ProcessMode) (labels : LabelMap)
    (idmap : Option IdentityMapping) (nopt : NetOpt) (dns : Option DNSConfig) :
    (NewWorkerOpt env root snFactory rootless processMode labels idmap nopt dns).trace.map
      Call.step = stepOrder.take
        (NewWorkerOpt env root snFactory rootless processMode labels idmap nopt dns).trace.length ∧
    (∀ c ∈ (NewWorkerOpt env root snFactory rootless processMode labels idmap nopt
      dns).trace.dropLast, Call.result env snFactory c = none) ∧
    (∃ c, (NewWorkerOpt env root snFactory rootless processMode labels idmap nopt
      dns).trace.getLast? = some c ∧ Call.result env snFactory c =
        (NewWorkerOpt env root snFactory rootless processMode labels idmap nopt dns).err) ∧
    ((NewWorkerOpt env root snFactory rootless processMode labels idmap nopt dns).err ≠ none →
      (NewWorkerOpt env root snFactory rootless processMode labels idmap nopt dns).opt
        = WorkerOpt.zero) ∧
    ((NewWorkerOpt env root snFactory rootless processMode labels idmap nopt dns).err = none →
      (NewWorkerOpt env root snFactory rootless processMode labels idmap nopt dns).trace.length
        = 9) := by
  unfold NewWorkerOpt
  dsimp only
  generalize filepath.Join [root, "runc-" ++ snFactory.Name] = W
  cases h1 : env.MkdirAll W 448 with
  | some err =>
    simp [Call.step, stepOrder, Call.result, errOf, h1]
  | none =>
  cases h2 : env.NewStore (filepath.Join [W, "metadata.db"]) with
  | error err =>
    simp [Call.step, stepOrder, Call.result, errOf, h1, h2]
  | ok md =>
  cases h3 : env.Providers nopt with
  | error err =>
    simp [Call.step, stepOrder, Call.result, errOf, h1, h2, h3]
  | ok np =>
  cases h4 : env.RuncNew ⟨filepath.Join [W, "executor"], rootless, processMode, idmap, dns⟩ np with
  | error err =>
    simp [Call.step, stepOrder, Call.result, errOf, h1, h2, h3, h4]
  | ok exe =>
  cases h5 : snFactory.New (filepath.Join [W, "snapshots"]) with
  | error err =>
    simp [Call.step, stepOrder, Call.result, errOf, h1, h2, h3, h4, h5]
  | ok s =>
  cases h6 : env.LocalNewStore (filepath.Join [W, "content"]) with
  | error err =>
    simp [Call.step, stepOrder, Call.result, errOf, h1, h2, h3, h4, h5, h6]
  | ok c0 =>
  cases h7 : env.BoltOpen (filepath.Join [W, "containerdmeta.db"]) 420 with
  | error err =>
    simp [Call.step, stepOrder, Call.result, errOf, h1, h2, h3, h4, h5, h6, h7]
  | ok db =>
  cases h8 : env.MdbInit { db := db, cs := c0, ss := [(snFactory.Name, s)] } Context.TODO with
  | some err =>
    simp [Call.step, stepOrder, Call.result, errOf, h1, h2, h3, h4, h5, h6, h7, h8]
  | none =>
  cases h9 : env.ID W with
  | error err =>
    simp [Call.step, stepOrder, Call.result, errOf, h1, h2, h3, h4, h5, h6, h7, h8, h9]
  | ok id =>
  simp [Call.step, stepOrder, Call.result, errOf, h1, h2, h3, h4, h5, h6, h7, h8, h9]

/-- Every step is given the path the source text gives it. -/
theorem NewWorkerOpt_paths (env : Env) (root : String) (snFactory : SnapshotterFactory)
    (rootless : Bool) (processMode : ProcessMode) (labels : LabelMap)
    (idmap : Option IdentityMapping) (nopt : NetOpt) (dns : Option DNSConfig) :
    ∀ c ∈ (NewWorkerOpt env root snFactory rootless processMode labels idmap nopt dns).trace,
      Call.path c = stepPath (workerDir root snFactory) (Call.step c) := by
  unfold NewWorkerOpt workerDir
  dsimp only
  generalize filepath.Join [root, "runc-" ++ snFactory.Name] = W
  cases h1 : env.MkdirAll W 448 with
  | some err =>
    simp [Call.step, Call.path, stepPath, h1]
  | none =>
  cases h2 : env.NewStore (filepath.Join [W, "metadata.db"]) with
  | error err =>
    simp [Call.step, Call.path, stepPath, h1, h2]
  | ok md =>
  cases h3 : env.Providers nopt with
  | error err =>
    simp [Call.step, Call.path, stepPath, h1, h2, h3]
  | ok np =>
  cases h4 : env.RuncNew ⟨filepath.Join [W, "executor"], rootless, processMode, idmap, dns⟩ np with
  | error err =>
    simp [Call.step, Call.path, stepPath, h1, h2, h3, h4]
  | ok exe =>
  cases h5 : snFactory.New (filepath.Join [W, "snapshots"]) with
  | error err =>
    simp [Call.step, Call.path, stepPath, h1, h2, h3, h4, h5]
  | ok s =>
  cases h6 : env.LocalNewStore (filepath.Join [W, "content"]) with
  | error err =>
    simp [Call.step, Call.path, stepPath, h1, h2, h3, h4, h5, h6]
  | ok c0 =>
  cases h7 : env.BoltOpen (filepath.Join [W, "containerdmeta.db"]) 420 with
  | error err =>
    simp [Call.step, Call.path, stepPath, h1, h2, h3, h4, h5, h6, h7]
  | ok db =>
  cases h8 : env.MdbInit { db := db, cs := c0, ss := [(snFactory.Name, s)] } Context.TODO with
  | some err =>
    simp [Call.step, Call.path, stepPath, h1, h2, h3, h4, h5, h6, h7, h8]
  | none =>
  cases h9 : env.ID W with
  | error err =>
    simp [Call.step, Call.path, stepPath, h1, h2, h3, h4, h5, h6, h7, h8, h9]
  | ok id =>
  simp [Call.step, Call.path, stepPath, h1, h2, h3, h4, h5, h6, h7, h8, h9]

/-! ## Labels -/

theorem LabelMap.get_set (m : LabelMap) (k v k' : String) :
    LabelMap.get (LabelMap.set m k v) k' = if k = k' then some v else LabelMap.get m k' := by
  induction m with
  | nil => simp [LabelMap.set, LabelMap.get]
  | cons e rest ih =>
    obtain ⟨k0, v0⟩ := e
    by_cases h0 : k0 = k
    · subst h0
      by_cases hk : k0 = k' <;> simp [LabelMap.set, LabelMap.get, hk]
    · by_cases hk : k = k'
      · subst hk
        simp [LabelMap.set, LabelMap.get, h0, ih]
      · simp [LabelMap.set, LabelMap.get, h0, ih, hk]

theorem LabelMap.get_eq_none_of_not_mem (m : LabelMap) (k : String)
    (h : k ∉ m.map Prod.fst) : LabelMap.get m k = none := by
  induction m with
  | nil => rfl
  | cons e rest ih =>
    obtain ⟨k0, v0⟩ := e
    simp only [List.map_cons, List.mem_cons, not_or] at h
    have h0 : ¬ k0 = k := fun hh => h.1 hh.symm
    simp [LabelMap.get, h0, ih h.2]

/-- The lookup in the merged map: the value of `labels` where it has the key,
the value of `xlabels` elsewhere. -/
theorem mergeLabels_get (labels : LabelMap) (hwf : LabelMap.WellFormed labels)
    (xlabels : LabelMap) (k : String) :
    LabelMap.get (mergeLabels xlabels labels) k =
      match LabelMap.get labels k with
      | some v => some v
      | none => LabelMap.get xlabels k := by
  induction labels generalizing xlabels with
  | nil => simp [mergeLabels, LabelMap.get]
  | cons e rest ih =>
    obtain ⟨k0, v0⟩ := e
    have hnd : k0 ∉ rest.map Prod.fst ∧ LabelMap.WellFormed rest := by
      simpa [LabelMap.WellFormed] using hwf
    have hstep : mergeLabels xlabels ((k0, v0) :: rest) =
        mergeLabels (LabelMap.set xlabels k0 v0) rest := by
      simp [mergeLabels]
    rw [hstep, ih hnd.2]
    by_cases h0 : k0 = k
    · subst h0
      rw [LabelMap.get_eq_none_of_not_mem rest k0 hnd.1]
      simp [LabelMap.get, LabelMap.get_set]
    · simp only [LabelMap.get, h0, if_false, LabelMap.get_set]

/-- C1. The labels of the value that a successful `NewWorkerOpt` returns are the
union of `base.Labels("oci", snFactory.Name)` and the labels of the caller: a key
of the caller has the value of the caller, also when the base labels have the
key; a key of the base labels alone keeps its base value; no other key is
present (its lookup finds nothing). -/
theorem C1_labels_union (env : Env) (root : String) (snFactory : SnapshotterFactory)
    (rootless : Bool) (processMode : ProcessMode) (labels : LabelMap)
    (idmap : Option IdentityMapping) (nopt : NetOpt) (dns : Option DNSConfig)
    (hwf : LabelMap.WellFormed labels)
    (hok : (NewWorkerOpt env root snFactory rootless processMode labels idmap nopt dns).err = none) :
    ∃ xlabels,
      (NewWorkerOpt env root snFactory rootless processMode labels idmap nopt dns).opt.Labels
        = some xlabels ∧
      (∀ k v, LabelMap.get labels k = some v → LabelMap.get xlabels k = some v) ∧
      (∀ k, LabelMap.get labels k = none →
        LabelMap.get xlabels k = LabelMap.get (env.Labels "oci" snFactory.Name) k) ∧
      (∀ k, LabelMap.get labels k = none →
        LabelMap.get (env.Labels "oci" snFactory.Name) k = none → LabelMap.get xlabels k = none) := by
  obtain ⟨md, np, exe, s, c0, db, id, -, -, -, -, -, -, -, -, -, hopt⟩ :=
    NewWorkerOpt_ok env root snFactory rootless processMode labels idmap nopt dns hok
  refine ⟨mergeLabels (env.Labels "oci" snFactory.Name) labels, ?_, ?_, ?_, ?_⟩
  · rw [hopt]
  · intro k v hk
    rw [mergeLabels_get labels hwf, hk]
  · intro k hk
    rw [mergeLabels_get labels hwf, hk]
  · intro k hk hb
    rw [mergeLabels_get labels hwf, hk, hb]

/-- C1 at the sample environment: the caller overrides the snapshotter label and
adds a label of its own. -/
theorem C1_labels_union_witness :
    LabelMap.WellFormed [("org.mobyproject.buildkit.worker.snapshotter", "mine"), ("zone", "a")] ∧
    (sampleRun sampleEnv
      [("org.mobyproject.buildkit.worker.snapshotter", "mine"), ("zone", "a")]).err = none ∧
    ∃ xlabels,
      (sampleRun sampleEnv
        [("org.mobyproject.buildkit.worker.snapshotter", "mine"), ("zone", "a")]).opt.Labels
        = some xlabels ∧
      (∀ k v, LabelMap.get [("org.mobyproject.buildkit.worker.snapshotter", "mine"), ("zone", "a")] k
          = some v → LabelMap.get xlabels k = some v) ∧
      (∀ k, LabelMap.get [("org.mobyproject.buildkit.worker.snapshotter", "mine"), ("zone", "a")] k
          = none →
        LabelMap.get xlabels k = LabelMap.get (sampleEnv.Labels "oci" sampleFactory.Name) k) ∧
      (∀ k, LabelMap.get [("org.mobyproject.buildkit.worker.snapshotter", "mine"), ("zone", "a")] k
          = none →
        LabelMap.get (sampleEnv.Labels "oci" sampleFactory.Name) k = none →
        LabelMap.get xlabels k = none) :=
  ⟨by decide, by decide,
    C1_labels_union sampleEnv "/var/lib/buildkit" sampleFactory false ⟨0⟩ _ none ⟨"auto", ""⟩ none
      (by decide) (by decide)⟩

/-! ## Errors -/

/-- C2. Whenever a step that `NewWorkerOpt` ran failed, `NewWorkerOpt` returns an
error that is not nil together with the zero value of `base.WorkerOpt`: no field
of the handle is populated. -/
theorem C2_failure_returns_zero (env : Env) (root : String) (snFactory : SnapshotterFactory)
    (rootless : Bool) (processMode : ProcessMode) (labels : LabelMap)
    (idmap : Option IdentityMapping) (nopt : NetOpt) (dns : Option DNSConfig)
    (hfail : ∃ c ∈ (NewWorkerOpt env root snFactory rootless processMode labels idmap nopt
      dns).trace, Call.result env snFactory c ≠ none) :
    (NewWorkerOpt env root snFactory rootless processMode labels idmap nopt dns).err ≠ none ∧
    (NewWorkerOpt env root snFactory rootless processMode labels idmap nopt dns).opt
      = WorkerOpt.zero := by
  obtain ⟨-, hpre, ⟨c, hlast, hres⟩, hzero, -⟩ :=
    NewWorkerOpt_trace env root snFactory rootless processMode labels idmap nopt dns
  obtain ⟨c', hmem, hc'⟩ := hfail
  have herr : (NewWorkerOpt env root snFactory rootless processMode labels idmap nopt
      dns).err ≠ none := by
    intro hnone
    obtain ⟨pre, hsplit⟩ : ∃ pre, (NewWorkerOpt env root snFactory rootless processMode labels
        idmap nopt dns).trace = pre ++ [c] := by
      have h := List.getLast?_eq_some_iff.1 hlast
      exact h
    rw [hsplit, List.dropLast_concat] at hpre
    rw [hsplit, List.mem_append, List.mem_singleton] at hmem
    rcases hmem with hin | heq
    · exact hc' (hpre c' hin)
    · subst heq
      exact hc' (hres.trans hnone)
  exact ⟨herr, hzero herr⟩

/-- C2 where `bolt.Open` fails: the error is returned with the zero value. -/
theorem C2_failure_returns_zero_witness :
    (∃ c ∈ (sampleRun boltFailEnv []).trace, Call.result boltFailEnv sampleFactory c ≠ none) ∧
    (sampleRun boltFailEnv []).err ≠ none ∧ (sampleRun boltFailEnv []).opt = WorkerOpt.zero :=
  ⟨⟨Call.BoltOpen "/var/lib/buildkit/runc-overlayfs/containerdmeta.db" 0o644, by decide, by decide⟩,
    C2_failure_returns_zero boltFailEnv "/var/lib/buildkit" sampleFactory false ⟨0⟩ [] none
      ⟨"auto", ""⟩ none
      ⟨Call.BoltOpen "/var/lib/buildkit/runc-overlayfs/containerdmeta.db" 0o644, by decide,
        by decide⟩⟩

/-- C9. `NewWorkerOpt` runs its fallible steps in the order `os.MkdirAll`,
`metadata.NewStore`, `netproviders.Providers`, `runcexecutor.New`, `snFactory.New`,
`local.NewStore`, `bolt.Open`, `mdb.Init`, `base.ID`: the steps it ran are always
the first ones of that list.  It returns a nil error if and only if it ran all
nine and all nine succeeded.  When it returns an error, the step it ran last
returned exactly that error, every step before succeeded, and no later step
was run. -/
theorem C9_first_failure (env : Env) (root : String) (snFactory : SnapshotterFactory)
    (rootless : Bool) (processMode : ProcessMode) (labels : LabelMap)
    (idmap : Option IdentityMapping) (nopt : NetOpt) (dns : Option DNSConfig) :
    ((NewWorkerOpt env root snFactory rootless processMode labels idmap nopt dns).trace.map
        Call.step = stepOrder.take
          (NewWorkerOpt env root snFactory rootless processMode labels idmap nopt
            dns).trace.length) ∧
    ((NewWorkerOpt env root snFactory rootless processMode labels idmap nopt dns).err = none ↔
      ((NewWorkerOpt env root snFactory rootless processMode labels idmap nopt dns).trace.map
          Call.step = stepOrder ∧
        ∀ c ∈ (NewWorkerOpt env root snFactory rootless processMode labels idmap nopt dns).trace,
          Call.result env snFactory c = none)) ∧
    (∀ e, (NewWorkerOpt env root snFactory rootless processMode labels idmap nopt dns).err
        = some e →
      ∃ pre c,
        (NewWorkerOpt env root snFactory rootless processMode labels idmap nopt dns).trace
          = pre ++ [c] ∧
        (∀ c' ∈ pre, Call.result env snFactory c' = none) ∧
        Call.result env snFactory c = some e) := by
  obtain ⟨hord, hpre, ⟨c, hlast, hres⟩, -, hlen⟩ :=
    NewWorkerOpt_trace env root snFactory rootless processMode labels idmap nopt dns
  obtain ⟨pre, hsplit⟩ : ∃ pre, (NewWorkerOpt env root snFactory rootless processMode labels
      idmap nopt dns).trace = pre ++ [c] := List.getLast?_eq_some_iff.1 hlast
  rw [hsplit, List.dropLast_concat] at hpre
  refine ⟨hord, ⟨fun hnone => ⟨?_, ?_⟩, fun hall => ?_⟩, fun e he => ⟨pre, c, hsplit, hpre, ?_⟩⟩
  · rw [hord, hlen hnone]
    rfl
  · intro c' hmem
    rw [hsplit, List.mem_append, List.mem_singleton] at hmem
    rcases hmem with hin | heq
    · exact hpre c' hin
    · subst heq
      exact hres.trans hnone
  · rw [← hres]
    exact hall.2 c (by rw [hsplit]; simp)
  · rw [hres, he]

/-! ## The handle -/

/-- C7, as the claim has it, fails at the sample run.  The construction
succeeds and builds the trigger `sampleGC`, which the snapshotter of the handle
holds; the handle has the twelve fields of the literal of lines 109 to 122, and
none of them is a function: no field of the handle is the GC trigger. -/
theorem C7_no_trigger_field :
    (sampleRun sampleEnv []).err = none ∧
    (sampleRun sampleEnv []).opt.Snapshotter = some sampleSnapshotter ∧
    sampleSnapshotter.gc = sampleGC ∧
    (sampleRun sampleEnv []).opt.fields.map Prod.fst =
      ["ID", "Labels", "MetadataStore", "Executor", "Snapshotter", "ContentStore", "Applier",
       "Differ", "ImageStore", "Platforms", "IdentityMapping", "LeaseManager"] ∧
    ∀ f ∈ (sampleRun sampleEnv []).opt.fields, ∀ g : GCFunc, f.2 ≠ FieldValue.func g := by
  refine ⟨by decide, by decide, by decide, by decide, ?_⟩
  intro f hf g
  simp only [WorkerOpt.fields, List.mem_cons, List.mem_singleton, List.not_mem_nil,
    or_false] at hf
  rcases hf with h | h | h | h | h | h | h | h | h | h | h | h <;> rw [h] <;> simp

/-- C7. The handle that a successful `NewWorkerOpt` returns exposes, as its
fields: the worker identity `id`, which is the result of `base.ID` on the
worker directory; the label set, which is `base.Labels("oci", snFactory.Name)`
with the labels of the caller written over it; the metadata store `md` that
`metadata.NewStore` opened; the executor `exe` that `runcexecutor.New` built;
the snapshotter `containerdsnapshot.NewSnapshotter(snFactory.Name,
mdb.Snapshotter(snFactory.Name), c, md, "buildkit", gc, idmap)`; the content
store `c`, which is `containerdsnapshot.NewContentStore(mdb.ContentStore(),
"buildkit", gc)`; and the applier, the differ, the nil image store, the
platforms, the identity mapping and the lease manager.  The GC trigger `gc` is
not a field of the handle, and no field holds a function: `gc` is an argument
of the constructors of the snapshotter and of the content store, and only
these two values hold it. -/
theorem C7_handle_exposes (env : Env) (root : String) (snFactory : SnapshotterFactory)
    (rootless : Bool) (processMode : ProcessMode) (labels : LabelMap)
    (idmap : Option IdentityMapping) (nopt : NetOpt) (dns : Option DNSConfig)
    (hok : (NewWorkerOpt env root snFactory rootless processMode labels idmap nopt dns).err = none) :
    ∃ md np exe s c0 db id mdb gc c,
      env.NewStore (filepath.Join [workerDir root snFactory, "metadata.db"]) = .ok md ∧
      env.Providers nopt = .ok np ∧
      env.RuncNew
        { Root := filepath.Join [workerDir root snFactory, "executor"], Rootless := rootless,
          ProcessMode := processMode, IdentityMapping := idmap, DNS := dns } np = .ok exe ∧
      snFactory.New (filepath.Join [workerDir root snFactory, "snapshots"]) = .ok s ∧
      env.LocalNewStore (filepath.Join [workerDir root snFactory, "content"]) = .ok c0 ∧
      env.BoltOpen (filepath.Join [workerDir root snFactory, "containerdmeta.db"]) 0o644 = .ok db ∧
      env.ID (workerDir root snFactory) = .ok id ∧
      mdb = { db := db, cs := c0, ss := [(snFactory.Name, s)] } ∧
      gc = { throttledGC := { d := time.Second, f := { mdb := mdb } } } ∧
      c = ContentStore.namespaced (ContentStore.ofDB mdb) "buildkit" gc ∧
      (NewWorkerOpt env root snFactory rootless processMode labels idmap nopt dns).opt.fields =
        [("ID", .string id),
         ("Labels", .labels (some (mergeLabels (env.Labels "oci" snFactory.Name) labels))),
         ("MetadataStore", .metadataStore (some md)),
         ("Executor", .executor (some exe)),
         ("Snapshotter", .snapshotter (some
           { name := snFactory.Name, snapshotter := { mdb := mdb, name := snFactory.Name },
             store := c, mdstore := md, ns := "buildkit", gc := gc, idmap := idmap })),
         ("ContentStore", .contentStore (some c)),
         ("Applier", .applier (some { cs := c, innerCs := c })),
         ("Differ", .differ (some { store := c, innerStore := c })),
         ("ImageStore", .imageStore none),
         ("Platforms", .platforms [env.DefaultPlatform]),
         ("IdentityMapping", .identityMapping idmap),
         ("LeaseManager", .leaseManager (some { mdb := mdb, ns := "buildkit" }))] ∧
      ∀ f ∈ (NewWorkerOpt env root snFactory rootless processMode labels idmap nopt
        dns).opt.fields, ∀ g : GCFunc, f.2 ≠ FieldValue.func g := by
  obtain ⟨md, np, exe, s, c0, db, id, -, h2, h3, h4, h5, h6, h7, -, h9, hopt⟩ :=
    NewWorkerOpt_ok env root snFactory rootless processMode labels idmap nopt dns hok
  refine ⟨md, np, exe, s, c0, db, id, _, _, _, h2, h3, h4, h5, h6, h7, h9, rfl, rfl, rfl, ?_, ?_⟩
  · rw [hopt]
    rfl
  · intro f hf g
    simp only [WorkerOpt.fields, List.mem_cons, List.mem_singleton, List.not_mem_nil,
      or_false] at hf
    rcases hf with h | h | h | h | h | h | h | h | h | h | h | h <;> rw [h] <;> simp

/-- C7 at the sample environment: the fields of the handle of the sample run. -/
theorem C7_handle_exposes_witness :
    (sampleRun sampleEnv []).err = none ∧
    (sampleRun sampleEnv []).opt.fields =
      [("ID", .string "/var/lib/buildkit/runc-overlayfs"),
       ("Labels", .labels (some
         [("org.mobyproject.buildkit.worker.executor", "oci"),
          ("org.mobyproject.buildkit.worker.snapshotter", "overlayfs"),
          ("org.mobyproject.buildkit.worker.hostname", "host")])),
       ("MetadataStore", .metadataStore (some ⟨1⟩)),
       ("Executor", .executor (some ⟨3⟩)),
       ("Snapshotter", .snapshotter (some sampleSnapshotter)),
       ("ContentStore", .contentStore (some
         (ContentStore.namespaced (ContentStore.ofDB sampleMDB) "buildkit" sampleGC))),
       ("Applier", .applier (some
         { cs := ContentStore.namespaced (ContentStore.ofDB sampleMDB) "buildkit" sampleGC,
           innerCs := ContentStore.namespaced (ContentStore.ofDB sampleMDB) "buildkit"
             sampleGC })),
       ("Differ", .differ (some
         { store := ContentStore.namespaced (ContentStore.ofDB sampleMDB) "buildkit" sampleGC,
           innerStore := ContentStore.namespaced (ContentStore.ofDB sampleMDB) "buildkit"
             sampleGC })),
       ("ImageStore", .imageStore none),
       ("Platforms", .platforms [{ os := "linux", architecture := "amd64" }]),
       ("IdentityMapping", .identityMapping none),
       ("LeaseManager", .leaseManager (some { mdb := sampleMDB, ns := "buildkit" }))] ∧
    ∃ md np exe s c0 db id mdb gc c,
      sampleEnv.NewStore (filepath.Join [workerDir "/var/lib/buildkit" sampleFactory,
        "metadata.db"]) = .ok md ∧
      sampleEnv.Providers ⟨"auto", ""⟩ = .ok np ∧
      sampleEnv.RuncNew
        { Root := filepath.Join [workerDir "/var/lib/buildkit" sampleFactory, "executor"],
          Rootless := false, ProcessMode := ⟨0⟩, IdentityMapping := none, DNS := none } np
          = .ok exe ∧
      sampleFactory.New (filepath.Join [workerDir "/var/lib/buildkit" sampleFactory,
        "snapshots"]) = .ok s ∧
      sampleEnv.LocalNewStore (filepath.Join [workerDir "/var/lib/buildkit" sampleFactory,
        "content"]) = .ok c0 ∧
      sampleEnv.BoltOpen (filepath.Join [workerDir "/var/lib/buildkit" sampleFactory,
        "containerdmeta.db"]) 0o644 = .ok db ∧
      sampleEnv.ID (workerDir "/var/lib/buildkit" sampleFactory) = .ok id ∧
      mdb = { db := db, cs := c0, ss := [(sampleFactory.Name, s)] } ∧
      gc = { throttledGC := { d := time.Second, f := { mdb := mdb } } } ∧
      c = ContentStore.namespaced (ContentStore.ofDB mdb) "buildkit" gc ∧
      (sampleRun sampleEnv []).opt.fields =
        [("ID", .string id),
         ("Labels", .labels (some (mergeLabels (sampleEnv.Labels "oci" sampleFactory.Name) []))),
         ("MetadataStore", .metadataStore (some md)),
         ("Executor", .executor (some exe)),
         ("Snapshotter", .snapshotter (some
           { name := sampleFactory.Name,
             snapshotter := { mdb := mdb, name := sampleFactory.Name },
             store := c, mdstore := md, ns := "buildkit", gc := gc, idmap := none })),
         ("ContentStore", .contentStore (some c)),
         ("Applier", .applier (some { cs := c, innerCs := c })),
         ("Differ", .differ (some { store := c, innerStore := c })),
         ("ImageStore", .imageStore none),
         ("Platforms", .platforms [sampleEnv.DefaultPlatform]),
         ("IdentityMapping", .identityMapping none),
         ("LeaseManager", .leaseManager (some { mdb := mdb, ns := "buildkit" }))] ∧
      ∀ f ∈ (sampleRun sampleEnv []).opt.fields, ∀ g : GCFunc, f.2 ≠ FieldValue.func g :=
  ⟨by decide, by decide,
    C7_handle_exposes sampleEnv "/var/lib/buildkit" sampleFactory false ⟨0⟩ [] none ⟨"auto", ""⟩
      none (by decide)⟩

/-- C10. In the handle of a successful `NewWorkerOpt` the content store is the
wrapper `containerdsnapshot.NewContentStore(mdb.ContentStore(), "buildkit", gc)`,
not the local store `c0` that `local.NewStore` opened at the `content` directory
(that one is the store inside `mdb`); the same store value is handed to the
snapshotter, the applier and the differ; the snapshotter and the lease manager
have the namespace `buildkit`; and the snapshotter holds the `gc` of the content
store. -/
theorem C10_shared_store (env : Env) (root : String) (snFactory : SnapshotterFactory)
    (rootless : Bool) (processMode : ProcessMode) (labels : LabelMap)
    (idmap : Option IdentityMapping) (nopt : NetOpt) (dns : Option DNSConfig)
    (hok : (NewWorkerOpt env root snFactory rootless processMode labels idmap nopt dns).err = none) :
    ∃ c0 mdb gc sn lm,
      env.LocalNewStore (filepath.Join [workerDir root snFactory, "content"]) = .ok c0 ∧
      mdb.cs = c0 ∧
      (NewWorkerOpt env root snFactory rootless processMode labels idmap nopt
        dns).opt.ContentStore
        = some (ContentStore.namespaced (ContentStore.ofDB mdb) "buildkit" gc) ∧
      ContentStore.namespaced (ContentStore.ofDB mdb) "buildkit" gc ≠ ContentStore.localStore c0 ∧
      (NewWorkerOpt env root snFactory rootless processMode labels idmap nopt dns).opt.Snapshotter
        = some sn ∧
      sn.store = ContentStore.namespaced (ContentStore.ofDB mdb) "buildkit" gc ∧
      (NewWorkerOpt env root snFactory rootless processMode labels idmap nopt dns).opt.Applier
        = some { cs := ContentStore.namespaced (ContentStore.ofDB mdb) "buildkit" gc,
                 innerCs := ContentStore.namespaced (ContentStore.ofDB mdb) "buildkit" gc } ∧
      (NewWorkerOpt env root snFactory rootless processMode labels idmap nopt dns).opt.Differ
        = some { store := ContentStore.namespaced (ContentStore.ofDB mdb) "buildkit" gc,
                 innerStore := ContentStore.namespaced (ContentStore.ofDB mdb) "buildkit" gc } ∧
      (NewWorkerOpt env root snFactory rootless processMode labels idmap nopt
        dns).opt.LeaseManager = some lm ∧
      sn.ns = "buildkit" ∧ lm.ns = "buildkit" ∧ sn.ns = lm.ns ∧
      sn.gc = gc ∧
      sn.snapshotter.mdb = mdb ∧ lm.mdb = mdb ∧ gc.throttledGC.f.mdb = mdb := by
  obtain ⟨md, np, exe, s, c0, db, id, -, -, -, -, -, h6, -, -, -, hopt⟩ :=
    NewWorkerOpt_ok env root snFactory rootless processMode labels idmap nopt dns hok
  rw [hopt]
  refine ⟨c0, { db := db, cs := c0, ss := [(snFactory.Name, s)] }, _, _, _, h6, rfl, rfl, ?_,
    rfl, rfl, rfl, rfl, rfl, rfl, rfl, rfl, rfl, rfl, rfl, rfl⟩
  intro h
  cases h

/-- C10 at the sample environment. -/
theorem C10_shared_store_witness :
    (sampleRun sampleEnv []).err = none ∧
    ∃ c0 mdb gc sn lm,
      sampleEnv.LocalNewStore (filepath.Join [workerDir "/var/lib/buildkit" sampleFactory,
        "content"]) = .ok c0 ∧
      mdb.cs = c0 ∧
      (sampleRun sampleEnv []).opt.ContentStore
        = some (ContentStore.namespaced (ContentStore.ofDB mdb) "buildkit" gc) ∧
      ContentStore.namespaced (ContentStore.ofDB mdb) "buildkit" gc ≠ ContentStore.localStore c0 ∧
      (sampleRun sampleEnv []).opt.Snapshotter = some sn ∧
      sn.store = ContentStore.namespaced (ContentStore.ofDB mdb) "buildkit" gc ∧
      (sampleRun sampleEnv []).opt.Applier
        = some { cs := ContentStore.namespaced (ContentStore.ofDB mdb) "buildkit" gc,
                 innerCs := ContentStore.namespaced (ContentStore.ofDB mdb) "buildkit" gc } ∧
      (sampleRun sampleEnv []).opt.Differ
        = some { store := ContentStore.namespaced (ContentStore.ofDB mdb) "buildkit" gc,
                 innerStore := ContentStore.namespaced (ContentStore.ofDB mdb) "buildkit" gc } ∧
      (sampleRun sampleEnv []).opt.LeaseManager = some lm ∧
      sn.ns = "buildkit" ∧ lm.ns = "buildkit" ∧ sn.ns = lm.ns ∧
      sn.gc = gc ∧
      sn.snapshotter.mdb = mdb ∧ lm.mdb = mdb ∧ gc.throttledGC.f.mdb = mdb :=
  ⟨by decide,
    C10_shared_store sampleEnv "/var/lib/buildkit" sampleFactory false ⟨0⟩ [] none ⟨"auto", ""⟩
      none (by decide)⟩

/-! ## Paths -/

/-- C8. Every path that a step of `NewWorkerOpt` is given is the one the source
text names for the worker directory `W = filepath.Join(root, "runc-" +
snFactory.Name)`: `W` itself for `os.MkdirAll` and `base.ID`, and
`filepath.Join(W, name)` for the five stores, with `name` one of `metadata.db`,
`executor`, `snapshots`, `content`, `containerdmeta.db`.  Each of the five lies
directly under `W`: it is `W/name` (`/name` when `W` is the root, `name` when `W`
is `.`).  The five paths are pairwise distinct; in particular the metadata
store path differs from the index path. -/
theorem C8_paths_under_worker_dir (env : Env) (root : String) (snFactory : SnapshotterFactory)
    (rootless : Bool) (processMode : ProcessMode) (labels : LabelMap)
    (idmap : Option IdentityMapping) (nopt : NetOpt) (dns : Option DNSConfig) :
    (∀ c ∈ (NewWorkerOpt env root snFactory rootless processMode labels idmap nopt dns).trace,
      Call.path c = stepPath (workerDir root snFactory) (Call.step c)) ∧
    persistentPaths (workerDir root snFactory) =
      [underDir (workerDir root snFactory) "metadata.db",
       underDir (workerDir root snFactory) "executor",
       underDir (workerDir root snFactory) "snapshots",
       underDir (workerDir root snFactory) "content",
       underDir (workerDir root snFactory) "containerdmeta.db"] ∧
    (persistentPaths (workerDir root snFactory)).Pairwise (fun p q => p ≠ q) ∧
    filepath.Join [workerDir root snFactory, "metadata.db"] ≠
      filepath.Join [workerDir root snFactory, "containerdmeta.db"] := by
  have hW := workerDir_ne_empty root snFactory
  have hc := workerDir_clean root snFactory
  refine ⟨NewWorkerOpt_paths env root snFactory rootless processMode labels idmap nopt dns,
    ?_, ?_, ?_⟩
  · simp only [persistentPaths]
    rw [Join_underDir _ "metadata.db" hc (by decide), Join_underDir _ "executor" hc (by decide),
      Join_underDir _ "snapshots" hc (by decide), Join_underDir _ "content" hc (by decide),
      Join_underDir _ "containerdmeta.db" hc (by decide)]
  · simp only [persistentPaths, List.pairwise_cons, List.mem_cons, List.mem_singleton,
      List.not_mem_nil, forall_eq_or_imp, forall_eq, false_imp_iff, implies_true,
      List.Pairwise.nil, and_true]
    refine ⟨⟨?_, ?_, ?_, ?_⟩, ⟨?_, ?_, ?_⟩, ⟨?_, ?_⟩, ?_⟩ <;>
      exact filepath.Join_proper_ne _ _ _ hW (by decide) (by decide) (by decide)
  · exact filepath.Join_proper_ne _ _ _ hW (by decide) (by decide) (by decide)

/-! ## The worker identity -/

/-- C5. The worker ID is derived from the storage root: `NewWorkerOpt` passes the
worker directory `filepath.Join(root, "runc-" + snFactory.Name)` to `base.ID`.
Two successful constructions, in whatever environments, with the same root and
the same snapshotter name have the same ID.  Two successful constructions with
different roots, that is, roots that name different directories
(`filepath.Clean` of them differs), have different IDs, the snapshotter names
being path elements (without a separator), equal or not.  In all: the IDs are
equal exactly when the cleaned roots are equal and the names are equal. -/
theorem C5_id_from_root (d : DerivedID) (env1 env2 : Env)
    (root1 root2 : String) (snFactory1 snFactory2 : SnapshotterFactory)
    (rootless1 rootless2 : Bool) (processMode1 processMode2 : ProcessMode)
    (labels1 labels2 : LabelMap) (idmap1 idmap2 : Option IdentityMapping)
    (nopt1 nopt2 : NetOpt) (dns1 dns2 : Option DNSConfig)
    (hd1 : DerivedID.holdsIn d env1) (hd2 : DerivedID.holdsIn d env2)
    (hok1 : (NewWorkerOpt env1 root1 snFactory1 rootless1 processMode1 labels1 idmap1 nopt1
      dns1).err = none)
    (hok2 : (NewWorkerOpt env2 root2 snFactory2 rootless2 processMode2 labels2 idmap2 nopt2
      dns2).err = none) :
    (root1 = root2 → snFactory1.Name = snFactory2.Name →
      (NewWorkerOpt env1 root1 snFactory1 rootless1 processMode1 labels1 idmap1 nopt1 dns1).opt.ID =
      (NewWorkerOpt env2 root2 snFactory2 rootless2 processMode2 labels2 idmap2 nopt2
        dns2).opt.ID) ∧
    (snFactory1.Name.data.all (fun b => !filepath.IsPathSeparator b) = true →
      snFactory2.Name.data.all (fun b => !filepath.IsPathSeparator b) = true →
      filepath.Clean root1 ≠ filepath.Clean root2 →
      (NewWorkerOpt env1 root1 snFactory1 rootless1 processMode1 labels1 idmap1 nopt1 dns1).opt.ID ≠
      (NewWorkerOpt env2 root2 snFactory2 rootless2 processMode2 labels2 idmap2 nopt2
        dns2).opt.ID) ∧
    (snFactory1.Name.data.all (fun b => !filepath.IsPathSeparator b) = true →
      snFactory2.Name.data.all (fun b => !filepath.IsPathSeparator b) = true →
      ((NewWorkerOpt env1 root1 snFactory1 rootless1 processMode1 labels1 idmap1 nopt1
          dns1).opt.ID =
        (NewWorkerOpt env2 root2 snFactory2 rootless2 processMode2 labels2 idmap2 nopt2
          dns2).opt.ID
        ↔ filepath.Clean root1 = filepath.Clean root2 ∧ snFactory1.Name = snFactory2.Name)) := by
  obtain ⟨_, _, _, _, _, _, id1, -, -, -, -, -, -, -, -, hid1, hopt1⟩ :=
    NewWorkerOpt_ok env1 root1 snFactory1 rootless1 processMode1 labels1 idmap1 nopt1 dns1 hok1
  obtain ⟨_, _, _, _, _, _, id2, -, -, -, -, -, -, -, -, hid2, hopt2⟩ :=
    NewWorkerOpt_ok env2 root2 snFactory2 rootless2 processMode2 labels2 idmap2 nopt2 dns2 hok2
  have e1 := hd1 _ _ hid1
  have e2 := hd2 _ _ hid2
  have hiff : id1 = id2 ↔ workerDir root1 snFactory1 = workerDir root2 snFactory2 := by
    constructor
    · intro h
      by_contra hne
      exact d.distinct _ _ hne (by rw [← e1, ← e2, h])
    · intro h
      rw [e1, e2, h]
  rw [hopt1, hopt2]
  refine ⟨?_, ?_, ?_⟩
  · intro hr hn
    apply hiff.2
    unfold workerDir
    rw [hr, hn]
  · intro hn1 hn2 hne hid
    exact hne ((workerDir_eq_iff root1 root2 snFactory1 snFactory2 hn1 hn2).1 (hiff.1 hid)).1
  · intro hn1 hn2
    exact hiff.trans (workerDir_eq_iff root1 root2 snFactory1 snFactory2 hn1 hn2)

/-- C5 at the sample environment with the roots `/var/lib/buildkit` and
`/srv/buildkit`, which name different directories, and the snapshotter name
`overlayfs`. -/
theorem C5_id_from_root_witness :
    DerivedID.holdsIn pathID sampleEnv ∧
    (sampleRun sampleEnv []).err = none ∧
    (NewWorkerOpt sampleEnv "/srv/buildkit" sampleFactory false ⟨0⟩ [] none ⟨"auto", ""⟩
      none).err = none ∧
    sampleFactory.Name.data.all (fun b => !filepath.IsPathSeparator b) = true ∧
    filepath.Clean "/var/lib/buildkit" ≠ filepath.Clean "/srv/buildkit" ∧
    (("/var/lib/buildkit" = "/srv/buildkit" → sampleFactory.Name = sampleFactory.Name →
      (sampleRun sampleEnv []).opt.ID =
      (NewWorkerOpt sampleEnv "/srv/buildkit" sampleFactory false ⟨0⟩ [] none ⟨"auto", ""⟩
        none).opt.ID) ∧
    (sampleFactory.Name.data.all (fun b => !filepath.IsPathSeparator b) = true →
      sampleFactory.Name.data.all (fun b => !filepath.IsPathSeparator b) = true →
      filepath.Clean "/var/lib/buildkit" ≠ filepath.Clean "/srv/buildkit" →
      (sampleRun sampleEnv []).opt.ID ≠
      (NewWorkerOpt sampleEnv "/srv/buildkit" sampleFactory false ⟨0⟩ [] none ⟨"auto", ""⟩
        none).opt.ID) ∧
    (sampleFactory.Name.data.all (fun b => !filepath.IsPathSeparator b) = true →
      sampleFactory.Name.data.all (fun b => !filepath.IsPathSeparator b) = true →
      ((sampleRun sampleEnv []).opt.ID =
        (NewWorkerOpt sampleEnv "/srv/buildkit" sampleFactory false ⟨0⟩ [] none ⟨"auto", ""⟩
          none).opt.ID
        ↔ filepath.Clean "/var/lib/buildkit" = filepath.Clean "/srv/buildkit" ∧
          sampleFactory.Name = sampleFactory.Name))) :=
  have h : DerivedID.holdsIn pathID sampleEnv := by
    intro root id h
    simp only [sampleEnv] at h
    cases h
    rfl
  ⟨h, by decide, by decide, by decide, by decide,
    C5_id_from_root pathID sampleEnv sampleEnv "/var/lib/buildkit" "/srv/buildkit"
      sampleFactory sampleFactory false false ⟨0⟩ ⟨0⟩ [] [] none none ⟨"auto", ""⟩ ⟨"auto", ""⟩
      none none h h (by decide) (by decide)⟩

/-! ## The GC trigger -/

/-- The trigger in the handle of a successful `NewWorkerOpt`: the throttle has
the window `time.Second`. -/
theorem NewWorkerOpt_gc (env : Env) (root : String) (snFactory : SnapshotterFactory)
    (rootless : Bool) (processMode : ProcessMode) (labels : LabelMap)
    (idmap : Option IdentityMapping) (nopt : NetOpt) (dns : Option DNSConfig) (sn : Snapshotter)
    (hsn : (NewWorkerOpt env root snFactory rootless processMode labels idmap nopt
      dns).opt.Snapshotter = some sn) :
    ∃ mdb, sn.gc = { throttledGC := { d := time.Second, f := { mdb := mdb } } } := by
  have hok : (NewWorkerOpt env root snFactory rootless processMode labels idmap nopt
      dns).err = none := by
    by_contra hne
    have hz := (NewWorkerOpt_trace env root snFactory rootless processMode labels idmap nopt
      dns).2.2.2.1 hne
    rw [hz] at hsn
    simp [WorkerOpt.zero] at hsn
  obtain ⟨md, np, exe, s, c0, db, id, -, -, -, -, -, -, -, -, -, hopt⟩ :=
    NewWorkerOpt_ok env root snFactory rootless processMode labels idmap nopt dns hok
  rw [hopt] at hsn
  simp only [Option.some.injEq] at hsn
  subst hsn
  exact ⟨_, rfl⟩

theorem Runtime.returned_none (impl : GCImpl) (gc : GCFunc) (events : List Event) :
    ∀ rt : Runtime, ∀ r ∈ Runtime.returned impl gc rt events, r = none := by
  induction events with
  | nil => intro rt r hr; simp [Runtime.returned] at hr
  | cons e rest ih =>
    intro rt r hr
    cases e with
    | gc ctx =>
      simp only [Runtime.returned, List.mem_cons] at hr
      rcases hr with h | h
      · rw [h]; rfl
      · exact ih _ r h
    | tick dt => exact ih _ r (by simpa [Runtime.returned] using hr)
    | sweepStart fault => exact ih _ r (by simpa [Runtime.returned] using hr)
    | sweepDone => exact ih _ r (by simpa [Runtime.returned] using hr)
    | op o => exact ih _ r (by simpa [Runtime.returned] using hr)

/-- C3. The trigger `gc` that `NewWorkerOpt` builds (the closure of lines 94 to
97, with whatever throttled function it captured) returns a nil error for
every context, a cancelled one too, in every state of the worker and whatever
`mdb.GarbageCollect` does: every call of the trigger in every sequence of
events returns nil, the call itself runs no sweep and logs nothing, and when
the sweep of a cycle fails the closure of lines 88 to 92 appends the error to
the log and returns nothing. -/
theorem C3_trigger_returns_nil (gc : GCFunc) (impl : GCImpl) :
    (∀ ctx rt, (gc.call ctx rt).2 = none) ∧
    (∀ rt, (gc.call { cancelled := true } rt).2 = none) ∧
    (∀ ctx rt, (gc.call ctx rt).1.gcCalls = rt.gcCalls ∧ (gc.call ctx rt).1.log = rt.log) ∧
    (∀ rt events, ∀ r ∈ Runtime.returned impl gc rt events, r = none) ∧
    (∀ fault rt store err,
      impl fault gc.throttledGC.f.mdb Context.TODO rt.store = (store, some err) →
      (SweepFunc.call impl fault gc.throttledGC.f rt).log = rt.log ++ ["GC error: " ++ err.msg]) := by
  refine ⟨fun _ _ => rfl, fun _ => rfl, fun _ _ => ⟨rfl, rfl⟩,
    fun rt events => Runtime.returned_none impl gc events rt, ?_⟩
  intro fault rt store err h
  simp only [SweepFunc.call, h]

/-! ## The throttle window -/

/-- From the first call of a window on, while the later calls stay inside the
window: either the cycle is still scheduled for the end of the window and no
sweep has run, or one sweep has run and nothing is scheduled. -/
theorem Runtime.window_phase (impl : GCImpl) (gc : GCFunc) (c0 T : Nat) (events : List Event) :
    ∀ rt : Runtime,
      ((rt.throttle.due = some T ∧ rt.throttle.running = false ∧ rt.gcCalls = c0 ∧
          T ≤ rt.throttle.now + gc.throttledGC.d) ∨
        (rt.throttle.due = none ∧ rt.throttle.pending = false ∧ rt.gcCalls = c0 + 1 ∧
          T ≤ rt.throttle.now)) →
      triggersBefore impl gc T rt events = true →
      (((Runtime.run impl gc rt events).throttle.due = some T ∧
          (Runtime.run impl gc rt events).throttle.running = false ∧
          (Runtime.run impl gc rt events).gcCalls = c0 ∧
          T ≤ (Runtime.run impl gc rt events).throttle.now + gc.throttledGC.d) ∨
        ((Runtime.run impl gc rt events).throttle.due = none ∧
          (Runtime.run impl gc rt events).throttle.pending = false ∧
          (Runtime.run impl gc rt events).gcCalls = c0 + 1 ∧
          T ≤ (Runtime.run impl gc rt events).throttle.now)) := by
  induction events with
  | nil => intro rt h _; exact h
  | cons e rest ih =>
    intro rt h hw
    have hrun : Runtime.run impl gc rt (e :: rest)
        = Runtime.run impl gc (Runtime.step impl gc rt e) rest := rfl
    rw [hrun]
    cases e with
    | gc ctx =>
      simp only [triggersBefore, Bool.and_eq_true, decide_eq_true_eq] at hw
      apply ih _ _ hw.2
      rcases h with ⟨hdue, hrunning, hc, hT⟩ | ⟨hdue, hp, hc, hT⟩
      · left
        simp [Runtime.step, GCFunc.call, ThrottledFunc.call, throttle.call, hdue, hrunning, hc, hT]
      · omega
    | tick dt =>
      simp only [triggersBefore] at hw
      apply ih _ _ hw
      rcases h with ⟨hdue, hrunning, hc, hT⟩ | ⟨hdue, hp, hc, hT⟩
      · left
        simp only [Runtime.step, throttle.tick]
        exact ⟨hdue, hrunning, hc, by omega⟩
      · right
        simp only [Runtime.step, throttle.tick]
        exact ⟨hdue, hp, hc, by omega⟩
    | sweepStart fault =>
      simp only [triggersBefore] at hw
      apply ih _ _ hw
      rcases h with ⟨hdue, hrunning, hc, hT⟩ | ⟨hdue, hp, hc, hT⟩
      · by_cases hcan : throttle.canStart rt.throttle = true
        · right
          have hle : T ≤ rt.throttle.now := by
            simpa [throttle.canStart, hdue, hrunning] using hcan
          simp only [Runtime.step, hcan, if_true, SweepFunc.call, throttle.start]
          split <;> simp [hc, hle]
        · left
          simp only [Runtime.step, hcan, if_false, Bool.false_eq_true]
          exact ⟨hdue, hrunning, hc, hT⟩
      · right
        have hcan : throttle.canStart rt.throttle = false := by
          simp [throttle.canStart, hdue]
        simp only [Runtime.step, hcan, if_false, Bool.false_eq_true]
        exact ⟨hdue, hp, hc, hT⟩
    | sweepDone =>
      simp only [triggersBefore] at hw
      apply ih _ _ hw
      rcases h with ⟨hdue, hrunning, hc, hT⟩ | ⟨hdue, hp, hc, hT⟩
      · left
        simp [Runtime.step, throttle.done, hrunning, hdue, hc, hT]
      · right
        by_cases hr : rt.throttle.running = true
        · simp [Runtime.step, throttle.done, hr, hdue, hp, hc, hT]
        · simp [Runtime.step, throttle.done, hr, hdue, hp, hc, hT]
    | op o =>
      simp only [triggersBefore] at hw
      apply ih _ _ hw
      rcases h with ⟨hdue, hrunning, hc, hT⟩ | ⟨hdue, hp, hc, hT⟩
      · left
        exact ⟨hdue, hrunning, hc, hT⟩
      · right
        exact ⟨hdue, hp, hc, hT⟩

/-- The start times of the sweeps of a run are a window apart, and every sweep
is one call of `mdb.GarbageCollect`. -/
theorem Runtime.spaced (impl : GCImpl) (gc : GCFunc) (events : List Event) :
    ∀ rt : Runtime,
      (rt.gcCalls = rt.throttle.started.length ∧
        (∀ t ∈ rt.throttle.started, t ≤ rt.throttle.now) ∧
        (∀ t, rt.throttle.due = some t → ∀ t0 ∈ rt.throttle.started, t0 + gc.throttledGC.d ≤ t) ∧
        rt.throttle.started.Pairwise (fun later earlier => earlier + gc.throttledGC.d ≤ later)) →
      ((Runtime.run impl gc rt events).gcCalls
          = (Runtime.run impl gc rt events).throttle.started.length ∧
        (∀ t ∈ (Runtime.run impl gc rt events).throttle.started,
          t ≤ (Runtime.run impl gc rt events).throttle.now) ∧
        (∀ t, (Runtime.run impl gc rt events).throttle.due = some t →
          ∀ t0 ∈ (Runtime.run impl gc rt events).throttle.started, t0 + gc.throttledGC.d ≤ t) ∧
        (Runtime.run impl gc rt events).throttle.started.Pairwise
          (fun later earlier => earlier + gc.throttledGC.d ≤ later)) := by
  induction events with
  | nil => intro rt h; exact h
  | cons e rest ih =>
    intro rt h
    have hrun : Runtime.run impl gc rt (e :: rest)
        = Runtime.run impl gc (Runtime.step impl gc rt e) rest := rfl
    rw [hrun]
    apply ih
    obtain ⟨hc, hnow, hdue, hpw⟩ := h
    cases e with
    | gc ctx =>
      simp only [Runtime.step, GCFunc.call, ThrottledFunc.call, throttle.call]
      refine ⟨hc, hnow, ?_, hpw⟩
      intro t ht t0 ht0
      split_ifs at ht with hcond
      · simp only [Option.some.injEq] at ht
        have := hnow t0 ht0
        omega
      · exact hdue t ht t0 ht0
    | tick dt =>
      simp only [Runtime.step, throttle.tick]
      refine ⟨hc, ?_, hdue, hpw⟩
      intro t ht
      have := hnow t ht
      omega
    | sweepStart fault =>
      by_cases hcan : throttle.canStart rt.throttle = true
      · have hstart : ∃ T, rt.throttle.due = some T ∧ T ≤ rt.throttle.now := by
          cases hd : rt.throttle.due with
          | none => simp [throttle.canStart, hd] at hcan
          | some T =>
            refine ⟨T, rfl, ?_⟩
            simp only [throttle.canStart, hd, Bool.and_eq_true, decide_eq_true_eq] at hcan
            exact hcan.1
        obtain ⟨T, hT, hle⟩ := hstart
        have hnew : ∀ t0 ∈ rt.throttle.started, t0 + gc.throttledGC.d ≤ rt.throttle.now :=
          fun t0 ht0 => le_trans (hdue T hT t0 ht0) hle
        simp only [Runtime.step, hcan, if_true, SweepFunc.call, throttle.start]
        split <;>
          exact ⟨by simp [hc], by
            intro t ht
            simp only [List.mem_cons] at ht
            rcases ht with h | h
            · exact le_of_eq h
            · exact hnow t h, by intro t ht; simp at ht,
            List.pairwise_cons.2 ⟨hnew, hpw⟩⟩
      · simp only [Runtime.step, hcan, if_false, Bool.false_eq_true]
        exact ⟨hc, hnow, hdue, hpw⟩
    | sweepDone =>
      by_cases hr : rt.throttle.running = true
      · by_cases hp : rt.throttle.pending = true
        · simp only [Runtime.step, throttle.done, hr, hp, if_true]
          refine ⟨hc, hnow, ?_, hpw⟩
          intro t ht t0 ht0
          simp only [Option.some.injEq] at ht
          have := hnow t0 ht0
          omega
        · simp only [Runtime.step, throttle.done, hr, hp, if_true, if_false, Bool.false_eq_true]
          refine ⟨hc, hnow, ?_, hpw⟩
          intro t ht
          simp at ht
      · simp only [Runtime.step, throttle.done, hr, if_false, Bool.false_eq_true]
        exact ⟨hc, hnow, hdue, hpw⟩
    | op o => exact ⟨hc, hnow, hdue, hpw⟩

/-- C4. When the trigger in the handle of a successful `NewWorkerOpt` is called
`N` times, `N ≥ 1`, within one throttle window (the first call
finds no cycle scheduled or in progress and opens the window of `time.Second`,
the other calls come, among whatever else happens, before the window has
elapsed), at most one sweep `mdb.GarbageCollect` is executed, and exactly one
once the window has elapsed and the throttle has started the cycle.  Also, the
sweeps of a worker start at least `time.Second` apart, so no window of that
length sees two of them start. -/
theorem C4_one_sweep_per_window (env : Env) (root : String) (snFactory : SnapshotterFactory)
    (rootless : Bool) (processMode : ProcessMode) (labels : LabelMap)
    (idmap : Option IdentityMapping) (nopt : NetOpt) (dns : Option DNSConfig) (sn : Snapshotter)
    (impl : GCImpl) (N : Nat) (rt : Runtime) (ctx : Context) (events : List Event)
    (hsn : (NewWorkerOpt env root snFactory rootless processMode labels idmap nopt
      dns).opt.Snapshotter = some sn)
    (hcount : triggerCount (.gc ctx :: events) = N)
    (hidle : rt.throttle.due = none ∧ rt.throttle.running = false)
    (hwin : triggersBefore impl sn.gc (rt.throttle.now + time.Second) rt (.gc ctx :: events)
      = true) :
    1 ≤ N ∧
    (Runtime.run impl sn.gc rt (.gc ctx :: events)).gcCalls ≤ rt.gcCalls + 1 ∧
    (∀ fault, (Runtime.run impl sn.gc rt
      (.gc ctx :: events ++ [.tick time.Second, .sweepStart fault])).gcCalls = rt.gcCalls + 1) ∧
    (∀ store evs,
      (Runtime.run impl sn.gc (Runtime.fresh store) evs).throttle.started.Pairwise
        (fun later earlier => earlier + time.Second ≤ later) ∧
      (Runtime.run impl sn.gc (Runtime.fresh store) evs).gcCalls
        = (Runtime.run impl sn.gc (Runtime.fresh store) evs).throttle.started.length) := by
  obtain ⟨mdb, hgc⟩ := NewWorkerOpt_gc env root snFactory rootless processMode labels idmap nopt
    dns sn hsn
  have hd : sn.gc.throttledGC.d = time.Second := by rw [hgc]
  have hfirst : Runtime.run impl sn.gc rt (.gc ctx :: events)
      = Runtime.run impl sn.gc (Runtime.step impl sn.gc rt (.gc ctx)) events := rfl
  simp only [triggersBefore, Bool.and_eq_true, decide_eq_true_eq] at hwin
  have hA : (Runtime.step impl sn.gc rt (.gc ctx)).throttle.due
        = some (rt.throttle.now + time.Second) ∧
      (Runtime.step impl sn.gc rt (.gc ctx)).throttle.running = false ∧
      (Runtime.step impl sn.gc rt (.gc ctx)).gcCalls = rt.gcCalls ∧
      rt.throttle.now + time.Second
        ≤ (Runtime.step impl sn.gc rt (.gc ctx)).throttle.now + sn.gc.throttledGC.d := by
    simp [Runtime.step, GCFunc.call, ThrottledFunc.call, throttle.call, hidle.1, hidle.2, hd]
  have hphase := Runtime.window_phase impl sn.gc rt.gcCalls (rt.throttle.now + time.Second)
    events _ (Or.inl hA) hwin.2
  refine ⟨?_, ?_, ?_, ?_⟩
  · rw [← hcount]
    simp [triggerCount]
  · rw [hfirst]
    rcases hphase with h | h <;> omega
  · intro fault
    have happ : Runtime.run impl sn.gc rt
          (.gc ctx :: events ++ [.tick time.Second, .sweepStart fault])
        = Runtime.step impl sn.gc (Runtime.step impl sn.gc
            (Runtime.run impl sn.gc (Runtime.step impl sn.gc rt (.gc ctx)) events)
            (.tick time.Second)) (.sweepStart fault) := by
      simp [Runtime.run, List.foldl_append]
    rw [happ]
    generalize Runtime.run impl sn.gc (Runtime.step impl sn.gc rt (.gc ctx)) events = r at hphase
    rcases hphase with ⟨hdue, hrunning, hc, hT⟩ | ⟨hdue, hp, hc, hT⟩
    · have hcan : throttle.canStart (throttle.tick time.Second r.throttle) = true := by
        simp only [throttle.canStart, throttle.tick, hdue, hrunning, Bool.and_eq_true,
          decide_eq_true_eq, Bool.not_false, and_true]
        omega
      simp only [Runtime.step, hcan, if_true, SweepFunc.call]
      split <;> simp [hc]
    · have hcan : throttle.canStart (throttle.tick time.Second r.throttle) = false := by
        simp [throttle.canStart, throttle.tick, hdue]
      simp only [Runtime.step, hcan, if_false, Bool.false_eq_true]
      exact hc
  · intro store evs
    have h := Runtime.spaced impl sn.gc evs (Runtime.fresh store)
      ⟨rfl, by simp [Runtime.fresh], by simp [Runtime.fresh], by simp [Runtime.fresh]⟩
    rw [hd] at h
    exact ⟨h.2.2.2, h.1⟩

/-- C4 at the sample run: three calls of the trigger, at 0, 100 and 300
nanoseconds, one of them with a cancelled context. -/
theorem C4_one_sweep_per_window_witness :
    (sampleRun sampleEnv []).opt.Snapshotter = some sampleSnapshotter ∧
    triggerCount [.gc Context.TODO, .tick 100, .gc Context.TODO, .tick 200, .gc ⟨true⟩] = 3 ∧
    ((Runtime.fresh sampleStore).throttle.due = none ∧
      (Runtime.fresh sampleStore).throttle.running = false) ∧
    triggersBefore GarbageCollect sampleSnapshotter.gc
      ((Runtime.fresh sampleStore).throttle.now + time.Second) (Runtime.fresh sampleStore)
      [.gc Context.TODO, .tick 100, .gc Context.TODO, .tick 200, .gc ⟨true⟩] = true ∧
    (1 ≤ 3 ∧
    (Runtime.run GarbageCollect sampleSnapshotter.gc (Runtime.fresh sampleStore)
      [.gc Context.TODO, .tick 100, .gc Context.TODO, .tick 200, .gc ⟨true⟩]).gcCalls
      ≤ (Runtime.fresh sampleStore).gcCalls + 1 ∧
    (∀ fault, (Runtime.run GarbageCollect sampleSnapshotter.gc (Runtime.fresh sampleStore)
      (.gc Context.TODO :: [.tick 100, .gc Context.TODO, .tick 200, .gc ⟨true⟩] ++
        [.tick time.Second, .sweepStart fault])).gcCalls
      = (Runtime.fresh sampleStore).gcCalls + 1) ∧
    (∀ store evs,
      (Runtime.run GarbageCollect sampleSnapshotter.gc (Runtime.fresh store)
        evs).throttle.started.Pairwise (fun later earlier => earlier + time.Second ≤ later) ∧
      (Runtime.run GarbageCollect sampleSnapshotter.gc (Runtime.fresh store) evs).gcCalls
        = (Runtime.run GarbageCollect sampleSnapshotter.gc (Runtime.fresh store)
            evs).throttle.started.length)) :=
  ⟨by decide, by decide, by decide, by decide,
    C4_one_sweep_per_window sampleEnv "/var/lib/buildkit" sampleFactory false ⟨0⟩ [] none
      ⟨"auto", ""⟩ none sampleSnapshotter GarbageCollect 3 (Runtime.fresh sampleStore)
      Context.TODO [.tick 100, .gc Context.TODO, .tick 200, .gc ⟨true⟩]
      (by decide) (by decide) (by decide) (by decide)⟩

/-! ## Leases and the collector -/

theorem closeParents_subset (s : Store) (n : Nat) :
    ∀ ids : List Nat, ∀ i ∈ ids, i ∈ closeParents s n ids := by
  induction n with
  | zero => intro ids i hi; exact hi
  | succ n ih =>
    intro ids i hi
    exact ih _ i (List.mem_append_left _ hi)

theorem Store.Ancestor.trans {s : Store} {i j k : Nat} (h1 : s.Ancestor i j)
    (h2 : s.Ancestor j k) : s.Ancestor i k := by
  induction h1 with
  | refl i => exact h2
  | step i p j hp _ ih => exact Store.Ancestor.step i p k hp (ih h2)

theorem Store.walk_add (s : Store) (a b : Nat) :
    ∀ i, s.walk (a + b) i = (s.walk a i).bind (s.walk b) := by
  induction a with
  | zero => intro i; simp [Store.walk]
  | succ a ih =>
    intro i
    have : a + 1 + b = (a + b) + 1 := by omega
    rw [this]
    simp only [Store.walk]
    cases s.parentOf i with
    | none => rfl
    | some p => exact ih p

theorem Store.walk_ancestor (s : Store) (k : Nat) :
    ∀ i j, s.walk k i = some j → s.Ancestor i j := by
  induction k with
  | zero =>
    intro i j h
    simp only [Store.walk, Option.some.injEq] at h
    rw [← h]
    exact Store.Ancestor.refl i
  | succ k ih =>
    intro i j h
    simp only [Store.walk] at h
    cases hp : s.parentOf i with
    | none => rw [hp] at h; cases h
    | some p =>
      rw [hp] at h
      exact Store.Ancestor.step i p j hp (ih p j h)

theorem Store.Ancestor.walk {s : Store} {i j : Nat} (h : s.Ancestor i j) :
    ∃ k, s.walk k i = some j := by
  induction h with
  | refl i => exact ⟨0, rfl⟩
  | step i p j hp _ ih =>
    obtain ⟨k, hk⟩ := ih
    exact ⟨k + 1, by simp [Store.walk, hp, hk]⟩

theorem Store.parentOf_mem (s : Store) (i p : Nat) (h : s.parentOf i = some p) :
    i ∈ s.snapshots.map (fun sn => sn.id) := by
  unfold Store.parentOf at h
  cases hf : s.snapshots.find? (fun sn => sn.id == i) with
  | none => rw [hf] at h; cases h
  | some sn =>
    have hmem := List.mem_of_find?_eq_some hf
    have hid := List.find?_some hf
    simp only [beq_iff_eq] at hid
    exact List.mem_map.2 ⟨sn, hmem, hid⟩

/-- A chain of parents has a chain no longer than the number of snapshots to
the same end: the shortest chain passes no snapshot twice. -/
theorem Store.walk_short (s : Store) (i j k : Nat) (h : s.walk k i = some j) :
    ∃ m, m ≤ s.snapshots.length ∧ s.walk m i = some j := by
  classical
  have hex : ∃ m, s.walk m i = some j := ⟨k, h⟩
  refine ⟨Nat.find hex, ?_, Nat.find_spec hex⟩
  have hm := Nat.find_spec hex
  have hmin : ∀ m', m' < Nat.find hex → s.walk m' i ≠ some j := fun m' hlt => Nat.find_min hex hlt
  generalize Nat.find hex = m at hm hmin
  -- every node before the end is a snapshot of the store
  have hnode : ∀ a, a < m → ∃ x, s.walk a i = some x ∧ s.walk (m - a) x = some j ∧
      x ∈ s.snapshots.map (fun sn => sn.id) := by
    intro a ha
    have hsplit := s.walk_add a (m - a) i
    rw [show a + (m - a) = m by omega, hm] at hsplit
    cases hx : s.walk a i with
    | none => rw [hx] at hsplit; cases hsplit
    | some x =>
      rw [hx] at hsplit
      have hrest : s.walk (m - a) x = some j := hsplit.symm
      refine ⟨x, rfl, hrest, ?_⟩
      obtain ⟨c, hc⟩ : ∃ c, m - a = c + 1 := ⟨m - a - 1, by omega⟩
      rw [hc] at hrest
      simp only [Store.walk] at hrest
      cases hp : s.parentOf x with
      | none => rw [hp] at hrest; cases hrest
      | some p => exact s.parentOf_mem x p hp
  have hcard : (Finset.range m).card ≤ (s.snapshots.map (fun sn => sn.id)).toFinset.card := by
    apply Finset.card_le_card_of_injOn (fun a => (s.walk a i).getD 0)
    · intro a ha
      obtain ⟨x, hx, -, hmem⟩ := hnode a (Finset.mem_range.1 ha)
      simp only [hx, Option.getD_some, List.mem_toFinset]
      exact hmem
    · intro a ha b hb hab
      have ha' : a < m := Finset.mem_range.1 (Finset.mem_coe.1 ha)
      have hb' : b < m := Finset.mem_range.1 (Finset.mem_coe.1 hb)
      obtain ⟨x, hx, hxr, -⟩ := hnode a ha'
      obtain ⟨y, hy, hyr, -⟩ := hnode b hb'
      simp only [hx, hy, Option.getD_some] at hab
      subst hab
      by_contra hne
      rcases Nat.lt_or_gt_of_ne hne with hlt | hgt
      · -- the chain from `a` on can start at `b` as well: a shorter chain
        have hshort : s.walk (a + (m - b)) i = some j := by
          rw [s.walk_add, hx]
          exact hyr
        exact hmin (a + (m - b)) (by omega) hshort
      · have hshort : s.walk (b + (m - a)) i = some j := by
          rw [s.walk_add, hy]
          exact hxr
        exact hmin (b + (m - a)) (by omega) hshort
  have hle := List.toFinset_card_le (s.snapshots.map (fun sn => sn.id))
  simp only [Finset.card_range, List.length_map] at hcard hle
  omega

theorem closeParents_walk (s : Store) (n : Nat) :
    ∀ (ids : List Nat) (k i j : Nat), i ∈ ids → k ≤ n → s.walk k i = some j →
      j ∈ closeParents s n ids := by
  induction n with
  | zero =>
    intro ids k i j hi hk h
    have : k = 0 := by omega
    subst this
    simp only [Store.walk, Option.some.injEq] at h
    rw [← h]
    exact hi
  | succ n ih =>
    intro ids k i j hi hk h
    cases k with
    | zero =>
      simp only [Store.walk, Option.some.injEq] at h
      rw [← h]
      exact closeParents_subset s (n + 1) ids i hi
    | succ k =>
      simp only [Store.walk] at h
      cases hp : s.parentOf i with
      | none => rw [hp] at h; cases h
      | some p =>
        rw [hp] at h
        have hmem : p ∈ ids ++ ids.filterMap (fun i => s.parentOf i) :=
          List.mem_append_right _ (List.mem_filterMap.2 ⟨i, hi, hp⟩)
        exact ih _ k p j hmem (by omega) h

/-- The closure holds every ancestor of its seeds. -/
theorem closeParents_complete (s : Store) (ids : List Nat) (i j : Nat) (hi : i ∈ ids)
    (h : s.Ancestor i j) : j ∈ closeParents s s.snapshots.length ids := by
  obtain ⟨k, hk⟩ := h.walk
  obtain ⟨m, hm, hw⟩ := s.walk_short i j k hk
  exact closeParents_walk s _ ids m i j hi hm hw

/-- The closure holds ancestors of its seeds only. -/
theorem closeParents_sound (s : Store) (n : Nat) :
    ∀ (ids : List Nat) (j : Nat), j ∈ closeParents s n ids → ∃ i ∈ ids, s.Ancestor i j := by
  induction n with
  | zero => intro ids j hj; exact ⟨j, hj, Store.Ancestor.refl j⟩
  | succ n ih =>
    intro ids j hj
    obtain ⟨i', hi', hanc⟩ := ih _ j hj
    rcases List.mem_append.1 hi' with h | h
    · exact ⟨i', h, hanc⟩
    · obtain ⟨i, hi, hp⟩ := List.mem_filterMap.1 h
      exact ⟨i, hi, Store.Ancestor.step i i' j hp hanc⟩


/-- A lease of the store that references a snapshot makes it reachable. -/
theorem reachable_of_ancestor (s : Store) (l : Lease) (hl : l ∈ s.leases) (i j : Nat)
    (hi : i ∈ l.refs .snapshot) (h : s.Ancestor i j) : j ∈ s.reachableSnapshots := by
  apply closeParents_complete s _ i j _ h
  simp only [Store.leasedSnapshots, List.mem_flatten, List.mem_map]
  exact ⟨l.snapshots, ⟨l, hl, rfl⟩, hi⟩

theorem mem_leafFirst (n : Nat) :
    ∀ (g : List SnapshotRec) (x : SnapshotRec), x ∈ leafFirst n g → x ∈ g := by
  induction n with
  | zero => intro g x hx; exact hx
  | succ n ih =>
    intro g x hx
    simp only [leafFirst] at hx
    split_ifs at hx with hempty
    · exact hx
    · rcases List.mem_append.1 hx with h | h
      · exact (List.mem_filter.1 h).1
      · exact (List.mem_filter.1 (ih _ x h)).1

/-- A snapshot that a cycle deletes is not reachable. -/
theorem garbage_snapshot (s : Store) (i : Nat) (h : (Kind.snapshot, i) ∈ s.garbage) :
    i ∉ s.reachableSnapshots := by
  simp only [Store.garbage, List.mem_append, List.mem_map, Prod.mk.injEq] at h
  rcases h with ⟨sn, hsn, -, hi⟩ | ⟨d, -, hk, -⟩
  · have := (List.mem_filter.1 (mem_leafFirst _ _ sn hsn)).2
    rw [← hi]
    simpa using this
  · cases hk

/-- A blob that a cycle deletes is not reachable. -/
theorem garbage_blob (s : Store) (d : Nat) (h : (Kind.blob, d) ∈ s.garbage) :
    d ∉ s.reachableBlobs := by
  simp only [Store.garbage, List.mem_append, List.mem_map, Prod.mk.injEq] at h
  rcases h with ⟨sn, -, hk, -⟩ | ⟨d', hd', -, hi⟩
  · cases hk
  · have := (List.mem_filter.1 hd').2
    rw [← hi]
    simpa using this

/-- A resource that a lease of the store references, directly or through the
parent chain or a diff, is not among the resources a cycle deletes. -/
theorem referenced_not_garbage (s : Store) (l : Lease) (hl : l ∈ s.leases) (kind : Kind)
    (r : Nat) (hr : s.References l kind r) : (kind, r) ∉ s.garbage := by
  intro hg
  cases kind with
  | snapshot =>
    obtain ⟨i, hi, hanc⟩ := hr
    exact garbage_snapshot s r hg (reachable_of_ancestor s l hl i r hi hanc)
  | blob =>
    apply garbage_blob s r hg
    rcases hr with hd | ⟨i, hi, sn, hsn, hanc, hd⟩
    · apply List.mem_append_left
      simp only [Store.leasedBlobs, List.mem_flatten, List.mem_map]
      exact ⟨l.blobs, ⟨l, hl, rfl⟩, hd⟩
    · apply List.mem_append_right
      simp only [List.mem_flatten, List.mem_map, List.mem_filter]
      have hreach := reachable_of_ancestor s l hl i sn.id hi hanc
      exact ⟨sn.diff, ⟨sn, ⟨hsn, by simpa using hreach⟩, rfl⟩, hd⟩

/-- What the deletion of the resources `xs` leaves. -/
theorem Store.foldl_delete (xs : List (Kind × Nat)) :
    ∀ s : Store,
      (xs.foldl Store.delete s).snapshots
        = s.snapshots.filter (fun sn => !xs.contains (Kind.snapshot, sn.id)) ∧
      (xs.foldl Store.delete s).blobs = s.blobs.filter (fun d => !xs.contains (Kind.blob, d)) ∧
      (xs.foldl Store.delete s).leases = s.leases := by
  induction xs with
  | nil => intro s; simp
  | cons x rest ih =>
    intro s
    obtain ⟨h1, h2, h3⟩ := ih (s.delete x)
    simp only [List.foldl_cons]
    rw [h1, h2, h3]
    obtain ⟨k, i⟩ := x
    cases k
    · refine ⟨?_, ?_, rfl⟩
      · simp only [Store.delete]
        apply List.filter_congr
        intro sn _
        simp [List.contains_cons]
      · simp only [Store.delete, List.filter_filter]
        apply List.filter_congr
        intro d _
        by_cases hd : d = i <;> simp [List.contains_cons, hd, bne_iff_ne]
    · refine ⟨?_, ?_, rfl⟩
      · simp only [Store.delete, List.filter_filter]
        apply List.filter_congr
        intro sn _
        by_cases hd : sn.id = i <;> simp [List.contains_cons, hd, bne_iff_ne]
      · simp only [Store.delete]
        apply List.filter_congr
        intro d _
        simp [List.contains_cons]

theorem find?_filter_keep (l : List SnapshotRec) (q : SnapshotRec → Bool) (i : Nat)
    (hq : ∀ sn ∈ l, sn.id = i → q sn = true) :
    (l.filter q).find? (fun sn => sn.id == i) = l.find? (fun sn => sn.id == i) := by
  induction l with
  | nil => rfl
  | cons x rest ih =>
    have ih' := ih (fun sn hsn => hq sn (List.mem_cons_of_mem _ hsn))
    by_cases hx : x.id = i
    · have hqx := hq x (List.mem_cons_self _ _) hx
      simp [List.filter_cons, hqx, List.find?_cons, hx]
    · by_cases hqx : q x = true
      · simp [List.filter_cons, hqx, List.find?_cons, hx, ih']
      · simp [List.filter_cons, hqx, List.find?_cons, hx, ih']

/-- References carry over to a store and a lease that keep the parents and the
snapshots on the chains of the lease, and the references of the lease. -/
theorem Store.References.transfer {s s' : Store} {l l' : Lease} {kind : Kind} {r : Nat}
    (hp : ∀ i ∈ l.refs .snapshot, ∀ k, s.Ancestor i k → ∀ p, s.parentOf k = some p →
      s'.parentOf k = some p)
    (hs : ∀ i ∈ l.refs .snapshot, ∀ sn ∈ s.snapshots, s.Ancestor i sn.id → sn ∈ s'.snapshots)
    (hl : ∀ k x, x ∈ l.refs k → x ∈ l'.refs k)
    (h : s.References l kind r) : s'.References l' kind r := by
  have hanc : ∀ i ∈ l.refs .snapshot, ∀ j k, s.Ancestor i j → s.Ancestor j k →
      s'.Ancestor j k := by
    intro i hi j k hij hjk
    induction hjk with
    | refl j => exact Store.Ancestor.refl j
    | step j p k hjp _ ih =>
      exact Store.Ancestor.step j p k (hp i hi j hij p hjp)
        (ih (hij.trans (Store.Ancestor.step j p p hjp (Store.Ancestor.refl p))))
  cases kind with
  | snapshot =>
    obtain ⟨i, hi, ha⟩ := h
    exact ⟨i, hl _ i hi, hanc i hi i r (Store.Ancestor.refl i) ha⟩
  | blob =>
    rcases h with hd | ⟨i, hi, sn, hsn, ha, hd⟩
    · exact Or.inl (hl _ r hd)
    · exact Or.inr ⟨i, hl _ i hi, sn, hs i hi sn hsn ha,
        hanc i hi i sn.id (Store.Ancestor.refl i) ha, hd⟩

/-- A cycle, failed or not, keeps every resource that a lease of the store
references, keeps the leases, and keeps the chain by which the lease
references the resource. -/
theorem GarbageCollect_keeps (fault : Option Fault) (mdb : MetaDB) (ctx : Context) (s : Store)
    (l : Lease) (hl : l ∈ s.leases) (kind : Kind) (r : Nat) (hr : s.References l kind r)
    (h : s.has kind r = true) :
    (GarbageCollect fault mdb ctx s).1.has kind r = true ∧
    (GarbageCollect fault mdb ctx s).1.leases = s.leases ∧
    (GarbageCollect fault mdb ctx s).1.References l kind r := by
  have key : ∀ xs : List (Kind × Nat), (∀ x ∈ xs, x ∈ s.garbage) →
      (xs.foldl Store.delete s).has kind r = true ∧
      (xs.foldl Store.delete s).leases = s.leases ∧
      (xs.foldl Store.delete s).References l kind r := by
    intro xs hxs
    obtain ⟨hsn, hbl, hle⟩ := Store.foldl_delete xs s
    have hkeep : ∀ i ∈ l.refs .snapshot, ∀ k, s.Ancestor i k →
        ∀ sn ∈ s.snapshots, sn.id = k → (!xs.contains (Kind.snapshot, sn.id)) = true := by
      intro i hi k hik sn _ hid
      have hng := referenced_not_garbage s l hl .snapshot k ⟨i, hi, hik⟩
      rw [hid]
      simp only [Bool.not_eq_true', List.contains_eq_any_beq, List.any_eq_false, beq_iff_eq]
      intro x hx hxe
      exact hng (hxs _ (by rw [hxe]; exact hx))
    have href : (xs.foldl Store.delete s).References l kind r := by
      apply Store.References.transfer _ _ (fun _ _ hx => hx) hr
      · intro i hi k hik p hp
        unfold Store.parentOf at hp ⊢
        rw [hsn, find?_filter_keep _ _ k (hkeep i hi k hik)]
        exact hp
      · intro i hi sn hmem hanc
        rw [hsn]
        exact List.mem_filter.2 ⟨hmem, hkeep i hi sn.id hanc sn hmem rfl⟩
    refine ⟨?_, hle, href⟩
    have hng := referenced_not_garbage s l hl kind r hr
    have hnot : (!xs.contains (kind, r)) = true := by
      simp only [Bool.not_eq_true', List.contains_eq_any_beq, List.any_eq_false, beq_iff_eq]
      intro x hx hxe
      exact hng (hxs _ (by rw [hxe]; exact hx))
    cases kind with
    | blob =>
      simp only [Store.has, List.contains_eq_any_beq, List.any_eq_true, beq_iff_eq] at h ⊢
      obtain ⟨b, hb, hbr⟩ := h
      rw [hbl]
      exact ⟨b, List.mem_filter.2 ⟨hb, by rw [← hbr]; exact hnot⟩, hbr⟩
    | snapshot =>
      simp only [Store.has, List.any_eq_true, beq_iff_eq] at h ⊢
      obtain ⟨sn, hmem, hid⟩ := h
      rw [hsn]
      exact ⟨sn, List.mem_filter.2 ⟨hmem, by rw [hid]; exact hnot⟩, hid⟩
  unfold GarbageCollect
  split_ifs
  · exact ⟨h, rfl, hr⟩
  · cases fault with
    | none => exact key _ (fun x hx => hx)
    | some f =>
      obtain ⟨n, err⟩ := f
      exact key _ (fun x hx => List.mem_of_mem_take hx)


theorem Lease.add_refs (l : Lease) (k kind : Kind) (r x : Nat)
    (hx : x ∈ l.refs kind) : x ∈ (l.add k r).refs kind := by
  cases k <;> cases kind
  · exact List.mem_cons_of_mem _ hx
  · exact hx
  · exact hx
  · exact List.mem_cons_of_mem _ hx

/-- An operation of a build other than the release of the lease and the removal
of a reference of the lease keeps the lease, what it references, and the
resource. -/
theorem StoreOp.apply_keeps (o : StoreOp) (s : Store) (lid : Nat) (kind : Kind) (R : Nat)
    (h1 : o ≠ .release lid) (h2 : ∀ k r, o ≠ .removeReference lid k r)
    (hl : ∃ l ∈ s.leases, l.id = lid ∧ s.References l kind R) (hh : s.has kind R = true) :
    (∃ l ∈ (o.apply s).leases, l.id = lid ∧ (o.apply s).References l kind R) ∧
    (o.apply s).has kind R = true := by
  obtain ⟨l, hlm, hid, hR⟩ := hl
  -- a store with the same snapshots has the same references
  have same : ∀ (s' : Store) (l' : Lease), s'.snapshots = s.snapshots →
      (∀ k x, x ∈ l.refs k → x ∈ l'.refs k) → s'.References l' kind R := by
    intro s' l' hsn hl'
    apply Store.References.transfer _ _ hl' hR
    · intro i _ k _ p hp
      unfold Store.parentOf at hp ⊢
      rw [hsn]
      exact hp
    · intro i _ sn hmem _
      rw [hsn]
      exact hmem
  cases o with
  | put d =>
    simp only [StoreOp.apply]
    split_ifs with hc
    · exact ⟨⟨l, hlm, hid, hR⟩, hh⟩
    · refine ⟨⟨l, hlm, hid, same _ l rfl (fun _ _ hx => hx)⟩, ?_⟩
      cases kind with
      | blob =>
        simp only [Store.has, List.contains_eq_any_beq, List.any_eq_true, beq_iff_eq] at hh ⊢
        obtain ⟨b, hb, hbr⟩ := hh
        exact ⟨b, List.mem_cons_of_mem _ hb, hbr⟩
      | snapshot => exact hh
  | createSnapshot parent diff =>
    simp only [StoreOp.apply]
    split_ifs with hc
    · refine ⟨⟨l, hlm, hid, ?_⟩, ?_⟩
      · apply Store.References.transfer _ _ (fun _ _ hx => hx) hR
        · intro i _ k _ p hp
          unfold Store.parentOf at hp ⊢
          cases hf : s.snapshots.find? (fun sn => sn.id == k) with
          | none => rw [hf] at hp; cases hp
          | some sn =>
            rw [hf] at hp
            rw [List.find?_append, hf]
            exact hp
        · intro i _ sn hmem _
          exact List.mem_append_left _ hmem
      · cases kind with
        | blob => exact hh
        | snapshot =>
          simp only [Store.has, List.any_eq_true, beq_iff_eq] at hh ⊢
          obtain ⟨sn, hsn, hsid⟩ := hh
          exact ⟨sn, List.mem_append_left _ hsn, hsid⟩
    · exact ⟨⟨l, hlm, hid, hR⟩, hh⟩
  | createLease ns =>
    refine ⟨⟨l, List.mem_cons_of_mem _ hlm, hid, same _ l rfl (fun _ _ hx => hx)⟩, ?_⟩
    cases kind <;> exact hh
  | addReference i k r =>
    refine ⟨?_, by cases kind <;> exact hh⟩
    by_cases hi : l.id = i
    · exact ⟨l.add k r, List.mem_map.2 ⟨l, hlm, by simp [hi]⟩,
        by cases k <;> exact hid, same _ _ rfl (fun kind' x hx => Lease.add_refs l k kind' r x hx)⟩
    · exact ⟨l, List.mem_map.2 ⟨l, hlm, by simp [hi]⟩, hid, same _ l rfl (fun _ _ hx => hx)⟩
  | removeReference i k r =>
    refine ⟨?_, by cases kind <;> exact hh⟩
    have hi : ¬ l.id = i := by
      intro e
      apply h2 k r
      rw [← hid, e]
    exact ⟨l, List.mem_map.2 ⟨l, hlm, by simp [hi]⟩, hid, same _ l rfl (fun _ _ hx => hx)⟩
  | release i =>
    refine ⟨?_, by cases kind <;> exact hh⟩
    have hne : l.id ≠ i := by
      intro e
      apply h1
      rw [← hid, e]
    exact ⟨l, List.mem_filter.2 ⟨hlm, by simp [hne]⟩, hid, same _ l rfl (fun _ _ hx => hx)⟩

/-- One event keeps the lease, what it references, and the resource. -/
theorem Runtime.step_keeps (gc : GCFunc) (rt : Runtime) (e : Event) (lid : Nat) (kind : Kind)
    (R : Nat) (h1 : e ≠ .op (.release lid)) (h2 : ∀ k r, e ≠ .op (.removeReference lid k r))
    (hl : ∃ l ∈ rt.store.leases, l.id = lid ∧ rt.store.References l kind R)
    (hh : rt.store.has kind R = true) :
    (∃ l ∈ (Runtime.step GarbageCollect gc rt e).store.leases,
      l.id = lid ∧ (Runtime.step GarbageCollect gc rt e).store.References l kind R) ∧
    (Runtime.step GarbageCollect gc rt e).store.has kind R = true := by
  cases e with
  | gc ctx => exact ⟨hl, hh⟩
  | tick dt => exact ⟨hl, hh⟩
  | sweepDone => exact ⟨hl, hh⟩
  | op o =>
    exact StoreOp.apply_keeps o rt.store lid kind R (fun e => h1 (by rw [e]))
      (fun k r e => h2 k r (by rw [e])) hl hh
  | sweepStart fault =>
    simp only [Runtime.step]
    split_ifs with hcan
    · obtain ⟨l, hlm, hid, hR⟩ := hl
      have hk := GarbageCollect_keeps fault gc.throttledGC.f.mdb Context.TODO rt.store l hlm kind
        R hR hh
      have hstore : (SweepFunc.call GarbageCollect fault gc.throttledGC.f
          { rt with throttle := throttle.start rt.throttle }).store
          = (GarbageCollect fault gc.throttledGC.f.mdb Context.TODO rt.store).1 := by
        simp only [SweepFunc.call]
        split <;> rename_i heq <;> simp [heq]
      rw [hstore]
      exact ⟨⟨l, by rw [hk.2.1]; exact hlm, hid, hk.2.2⟩, hk.1⟩
    · exact ⟨hl, hh⟩

/-- C6. For every lease `L` that references a resource `R` that the store has,
a blob or a snapshot, referenced directly, through the snapshot parent chain,
or as a blob of the diff of a snapshot `L` references: whatever happens to the
running worker (calls of the trigger, time, cycles of the throttle with sweeps
that succeed or fail, operations of builds), as long as `L` is active, that
is, no event releases `L` or removes a reference from it, the store has `R`
afterwards and `L` still references it: no collection cycle has deleted
`R`. -/
theorem C6_leased_resource_survives (gc : GCFunc) (rt : Runtime) (events : List Event)
    (lid : Nat) (kind : Kind) (R : Nat)
    (hlease : ∃ l ∈ rt.store.leases, l.id = lid ∧ rt.store.References l kind R)
    (hhas : rt.store.has kind R = true)
    (hactive : ∀ e ∈ events,
      e ≠ .op (.release lid) ∧ ∀ k r, e ≠ .op (.removeReference lid k r)) :
    (Runtime.run GarbageCollect gc rt events).store.has kind R = true ∧
    ∃ l ∈ (Runtime.run GarbageCollect gc rt events).store.leases,
      l.id = lid ∧ (Runtime.run GarbageCollect gc rt events).store.References l kind R := by
  induction events generalizing rt with
  | nil => exact ⟨hhas, hlease⟩
  | cons e rest ih =>
    have hstep := Runtime.step_keeps gc rt e lid kind R (hactive e (List.mem_cons_self _ _)).1
      (hactive e (List.mem_cons_self _ _)).2 hlease hhas
    exact ih (Runtime.step GarbageCollect gc rt e) hstep.1 hstep.2
      (fun e' he' => hactive e' (List.mem_cons_of_mem _ he'))

/-- C6 at the store `chainStore`: the lease `7` holds the snapshot `2` alone and
so references the blob `10` through the parent `1` of `2` and its diff.  A
cycle runs: it deletes the snapshot `3` and the blob `30`, which no lease
reaches, and keeps the snapshots `1` and `2` and the blobs `10` and `20`. -/
theorem C6_leased_resource_survives_witness :
    (∃ l ∈ (Runtime.fresh chainStore).store.leases,
      l.id = 7 ∧ (Runtime.fresh chainStore).store.References l Kind.blob 10) ∧
    (Runtime.fresh chainStore).store.has Kind.blob 10 = true ∧
    (∀ e ∈ [Event.gc Context.TODO, .tick time.Second, .sweepStart none, .sweepDone],
      e ≠ .op (.release 7) ∧ ∀ k r, e ≠ .op (.removeReference 7 k r)) ∧
    (Runtime.run GarbageCollect sampleGC (Runtime.fresh chainStore)
      [.gc Context.TODO, .tick time.Second, .sweepStart none, .sweepDone]).store
      = { chainStore with
          blobs := [10, 20]
          snapshots :=
            [{ id := 1, parent := none, diff := [10] },
             { id := 2, parent := some 1, diff := [20] }] } ∧
    ((Runtime.run GarbageCollect sampleGC (Runtime.fresh chainStore)
      [.gc Context.TODO, .tick time.Second, .sweepStart none, .sweepDone]).store.has
        Kind.blob 10 = true ∧
    ∃ l ∈ (Runtime.run GarbageCollect sampleGC (Runtime.fresh chainStore)
      [.gc Context.TODO, .tick time.Second, .sweepStart none, .sweepDone]).store.leases,
      l.id = 7 ∧ (Runtime.run GarbageCollect sampleGC (Runtime.fresh chainStore)
        [.gc Context.TODO, .tick time.Second, .sweepStart none, .sweepDone]).store.References
          l Kind.blob 10) :=
  have href : ∃ l ∈ (Runtime.fresh chainStore).store.leases,
      l.id = 7 ∧ (Runtime.fresh chainStore).store.References l Kind.blob 10 :=
    ⟨_, List.mem_cons_self _ _, rfl, Or.inr ⟨2, by decide,
      { id := 1, parent := none, diff := [10] }, by decide,
      Store.Ancestor.step 2 1 1 (by decide) (Store.Ancestor.refl 1), by decide⟩⟩
  have hact : ∀ e ∈ [Event.gc Context.TODO, .tick time.Second, .sweepStart none, .sweepDone],
      e ≠ .op (.release 7) ∧ ∀ k r, e ≠ .op (.removeReference 7 k r) := by
    intro e he
    simp only [List.mem_cons, List.mem_singleton, List.not_mem_nil, or_false] at he
    rcases he with rfl | rfl | rfl | rfl <;> exact ⟨by simp, fun k r => by simp⟩
  ⟨href, by decide, hact, by decide,
    C6_leased_resource_survives sampleGC (Runtime.fresh chainStore)
      [.gc Context.TODO, .tick time.Second, .sweepStart none, .sweepDone] 7 Kind.blob 10
      href (by decide) hact⟩

end Runc
